import Mathlib

/-!
Verification of the tagged-URN library (src/tagged_urn/tagged_urn.py).

Modelling conventions:
- A Python `str` is modelled as a `List Nat` of Unicode code points (`Str`).
- Python's character classification and case folding (`str.lower`,
  `isalnum`, `isdigit`, `isupper`, `strip`) are modelled on their ASCII
  behaviour, which is what all inputs considered here exercise.
- A Python `dict` is an insertion-ordered association list with unique keys;
  assignment replaces the value in place, new keys append at the end.
- Functions that can raise in Python return `Except UrnError _`.
-/

namespace TaggedUrnModel

/-- A Python string, as its list of code points. -/
abbrev Str := List Nat

/-- Code points of a Lean string literal, used for concrete inputs. -/
def strLit (s : String) : Str := s.toList.map Char.toNat

/-- ASCII whitespace, the characters Python's str.strip removes here. -/
def isWsp (c : Nat) : Bool := c = 32 || c = 9 || c = 10 || c = 13 || c = 11 || c = 12

/-- ASCII model of Python str.strip. -/
def pyStrip (s : Str) : Str := ((s.dropWhile isWsp).reverse.dropWhile isWsp).reverse

/-- ASCII model of one character of Python str.lower. -/
def pyLower (c : Nat) : Nat := if 65 ≤ c ∧ c ≤ 90 then c + 32 else c

/-- ASCII model of Python str.lower. -/
def pyLowerStr (s : Str) : Str := s.map pyLower

/-- ASCII model of Python str.isalnum for a single character. -/
def isAlnumCh (c : Nat) : Bool :=
  (48 ≤ c && c ≤ 57) || (65 ≤ c && c ≤ 90) || (97 ≤ c && c ≤ 122)

/-- ASCII model of Python str.isdigit for a single character. -/
def isDigitCh (c : Nat) : Bool := 48 ≤ c && c ≤ 57

/-- TaggedUrn._is_valid_key_char: alphanumeric or one of underscore,
hyphen, slash, colon, dot. -/
def isValidKeyChar (c : Nat) : Bool :=
  isAlnumCh c || c = 95 || c = 45 || c = 47 || c = 58 || c = 46

/-- TaggedUrn._is_valid_unquoted_value_char: key characters plus star,
question mark, exclamation mark. -/
def isValidUnquotedValueChar (c : Nat) : Bool :=
  isValidKeyChar c || c = 42 || c = 63 || c = 33

/-- TaggedUrn._is_purely_numeric. -/
def isPurelyNumeric (s : Str) : Bool := !s.isEmpty && s.all isDigitCh

/-- The one-character string "*". -/
def strStar : Str := [42]

/-- The one-character string "?". -/
def strQ : Str := [63]

/-- The one-character string "!". -/
def strBang : Str := [33]

/-- Lookup in an insertion-ordered dict (Python d.get(k)). -/
def dictGet : List (Str × Str) → Str → Option Str
  | [], _ => none
  | (k', v') :: d, k => if k' = k then some v' else dictGet d k

/-- Assignment in an insertion-ordered dict (Python d[k] = v): replaces in
place if the key exists, else appends. -/
def dictInsert : List (Str × Str) → Str → Str → List (Str × Str)
  | [], k, v => [(k, v)]
  | (k', v') :: d, k, v => if k' = k then (k, v) :: d else (k', v') :: dictInsert d k v

/-- Removal from a dict (Python d.pop(k, None)). -/
def dictRemove : List (Str × Str) → Str → List (Str × Str)
  | [], _ => []
  | (k', v') :: d, k => if k' = k then d else (k', v') :: dictRemove d k

/-- The tagged URN data model: a prefix string and a dict of tags. -/
structure TaggedUrn where
  pfx : Str
  tags : List (Str × Str)
deriving DecidableEq, Repr

/-- TaggedUrn.__init__: lowercases the prefix and every key, keeps values
as given. Keys colliding after lowercasing collapse, later value wins. -/
def mkUrn (p : Str) (ts : List (Str × Str)) : TaggedUrn :=
  ⟨pyLowerStr p, ts.foldl (fun d kv => dictInsert d (pyLowerStr kv.1) kv.2) []⟩

/-- TaggedUrn.empty. -/
def emptyUrn (p : Str) : TaggedUrn := mkUrn p []

/-- The error taxonomy of the library. -/
inductive UrnError where
  | empty
  | missingPfx
  | emptyPfx
  | invalidTagFormat
  | emptyTagComponent
  | invalidCharacter
  | duplicateKey
  | numericKey
  | unterminatedQuote
  | invalidEscapeSequence
  | pfxMismatch (expected actual : Str)
  | whitespaceInInput
deriving DecidableEq, Repr

/-- Decidable equality on `Except`, so concrete parser results can be checked
by `decide`. -/
instance {ε α : Type} [DecidableEq ε] [DecidableEq α] : DecidableEq (Except ε α) := fun a b =>
  match a, b with
  | .ok x, .ok y =>
    if h : x = y then .isTrue (by rw [h])
    else .isFalse (by intro he; injection he; exact h ‹x = y›)
  | .error x, .error y =>
    if h : x = y then .isTrue (by rw [h])
    else .isFalse (by intro he; injection he; exact h ‹x = y›)
  | .ok _, .error _ => .isFalse (by intro h; exact Except.noConfusion h)
  | .error _, .ok _ => .isFalse (by intro h; exact Except.noConfusion h)

/-- The parser states of the state machine. -/
inductive ParseState where
  | expectingKey
  | inKey
  | expectingValue
  | inUnquotedValue
  | inQuotedValue
  | inQuotedValueEscape
  | expectingSemiOrEnd
deriving DecidableEq, Repr

/-- TaggedUrn._finish_tag: validates and inserts a finished tag. -/
def finishTag (tags : List (Str × Str)) (k v : Str) :
    Except UrnError (List (Str × Str)) :=
  if k = [] then .error .emptyTagComponent
  else if v = [] then .error .emptyTagComponent
  else if (tags.map Prod.fst).contains k then .error .duplicateKey
  else if isPurelyNumeric k then .error .numericKey
  else .ok (tags ++ [(k, v)])

/-- The character-level state machine of TaggedUrn.from_string, over the
tag body. Each loop iteration consumes exactly one character; the nil case
is the end-of-input resolution. -/
def parseLoop : ParseState → List (Str × Str) → Str → Str → Str →
    Except UrnError (List (Str × Str))
  | st, tags, curKey, curVal, [] =>
    match st with
    | .inUnquotedValue => finishTag tags curKey curVal
    | .expectingSemiOrEnd => finishTag tags curKey curVal
    | .expectingKey => .ok tags
    | .inQuotedValue => .error .unterminatedQuote
    | .inQuotedValueEscape => .error .unterminatedQuote
    | .inKey =>
      if curKey = [] then .error .emptyTagComponent
      else finishTag tags curKey strStar
    | .expectingValue => .error .emptyTagComponent
  | st, tags, curKey, curVal, c :: cs =>
    match st with
    | .expectingKey =>
      if c = 59 then parseLoop .expectingKey tags curKey curVal cs
      else if isValidKeyChar c then
        parseLoop .inKey tags (curKey ++ [pyLower c]) curVal cs
      else .error .invalidCharacter
    | .inKey =>
      if c = 61 then
        if curKey = [] then .error .emptyTagComponent
        else parseLoop .expectingValue tags curKey curVal cs
      else if c = 59 then
        if curKey = [] then .error .emptyTagComponent
        else
          match finishTag tags curKey strStar with
          | .error e => .error e
          | .ok tags' => parseLoop .expectingKey tags' [] [] cs
      else if isValidKeyChar c then
        parseLoop .inKey tags (curKey ++ [pyLower c]) curVal cs
      else .error .invalidCharacter
    | .expectingValue =>
      if c = 34 then parseLoop .inQuotedValue tags curKey curVal cs
      else if c = 59 then .error .emptyTagComponent
      else if isValidUnquotedValueChar c then
        parseLoop .inUnquotedValue tags curKey (curVal ++ [pyLower c]) cs
      else .error .invalidCharacter
    | .inUnquotedValue =>
      if c = 59 then
        match finishTag tags curKey curVal with
        | .error e => .error e
        | .ok tags' => parseLoop .expectingKey tags' [] [] cs
      else if isValidUnquotedValueChar c then
        parseLoop .inUnquotedValue tags curKey (curVal ++ [pyLower c]) cs
      else .error .invalidCharacter
    | .inQuotedValue =>
      if c = 34 then parseLoop .expectingSemiOrEnd tags curKey curVal cs
      else if c = 92 then parseLoop .inQuotedValueEscape tags curKey curVal cs
      else parseLoop .inQuotedValue tags curKey (curVal ++ [c]) cs
    | .inQuotedValueEscape =>
      if c = 34 ∨ c = 92 then parseLoop .inQuotedValue tags curKey (curVal ++ [c]) cs
      else .error .invalidEscapeSequence
    | .expectingSemiOrEnd =>
      if c = 59 then
        match finishTag tags curKey curVal with
        | .error e => .error e
        | .ok tags' => parseLoop .expectingKey tags' [] [] cs
      else .error .invalidCharacter

/-- Split at the first colon (Python s.find applied to a colon): the part
before it and the part after it, or none when there is no colon. -/
def splitAtColon : Str → Option (Str × Str)
  | [] => none
  | c :: cs =>
    if c = 58 then some ([], cs)
    else (splitAtColon cs).map (fun ab => (c :: ab.1, ab.2))

/-- TaggedUrn.from_string. -/
def from_string (s : Str) : Except UrnError TaggedUrn :=
  if s ≠ pyStrip s then .error .whitespaceInInput
  else if s = [] then .error .empty
  else
    match splitAtColon s with
    | none => .error .missingPfx
    | some (before, after) =>
      if before = [] then .error .emptyPfx
      else
        let p := pyLowerStr before
        if after = [] ∨ after = [59] then .ok (mkUrn p [])
        else
          match parseLoop .expectingKey [] [] [] after with
          | .error e => .error e
          | .ok tags => .ok (mkUrn p tags)

/-- TaggedUrn._needs_quoting: a value needs quoting iff it contains one of
semicolon, equals, double quote, backslash, space, or an uppercase letter. -/
def needsQuoting (v : Str) : Bool :=
  v.any (fun c => c = 59 || c = 61 || c = 34 || c = 92 || c = 32 || (65 ≤ c && c ≤ 90))

/-- Body of TaggedUrn._quote_value: a backslash before each double quote or
backslash, other characters unchanged. -/
def escapeStr (v : Str) : Str :=
  (v.map (fun c => if c = 34 ∨ c = 92 then [92, c] else [c])).flatten

/-- TaggedUrn._quote_value. -/
def quoteValue (v : Str) : Str := 34 :: (escapeStr v ++ [34])

/-- Strict lexicographic order on code-point strings, as Python compares
two str values. -/
def strLtB : Str → Str → Bool
  | [], [] => false
  | [], _ :: _ => true
  | _ :: _, [] => false
  | a :: as, b :: bs => if a < b then true else if b < a then false else strLtB as bs

/-- Reflexive lexicographic order on code-point strings. -/
def strLeB (s t : Str) : Bool := strLtB s t || s = t

/-- Python tuple comparison on (key, value) pairs, the order used by the
sorted builtin in tags_to_string. -/
def tagLe (p q : Str × Str) : Prop :=
  (if p.1 = q.1 then strLeB p.2 q.2 else strLtB p.1 q.1) = true

instance : DecidableRel tagLe := fun p q =>
  inferInstanceAs (Decidable ((if p.1 = q.1 then strLeB p.2 q.2 else strLtB p.1 q.1) = true))

/-- Serialization of one tag, following the branch structure of
tags_to_string: star becomes the bare key, question mark and exclamation
mark keep their marker, other values are quoted exactly when needed. -/
def emitTag : Str × Str → Str
  | (k, v) =>
    if v = strStar then k
    else if v = strQ then k ++ [61, 63]
    else if v = strBang then k ++ [61, 33]
    else if needsQuoting v then k ++ [61] ++ quoteValue v
    else k ++ [61] ++ v

/-- Python ";".join. -/
def joinSemi : List Str → Str
  | [] => []
  | [t] => t
  | t :: t2 :: ts => t ++ 59 :: joinSemi (t2 :: ts)

/-- TaggedUrn.tags_to_string: sort the tags, serialize each, join with
semicolons. -/
def tags_to_string (u : TaggedUrn) : Str :=
  joinSemi ((u.tags.insertionSort tagLe).map emitTag)

/-- TaggedUrn.to_string. -/
def to_string (u : TaggedUrn) : Str := u.pfx ++ 58 :: tags_to_string u

/-- TaggedUrn.canonical. -/
def canonical (s : Str) : Except UrnError Str :=
  match from_string s with
  | .error e => .error e
  | .ok u => .ok (to_string u)

/-- TaggedUrn.get_tag: lowercases the key before lookup. -/
def get_tag (u : TaggedUrn) (k : Str) : Option Str := dictGet u.tags (pyLowerStr k)

/-- TaggedUrn.has_tag: lowercased key, case-sensitive value comparison. -/
def has_tag (u : TaggedUrn) (k v : Str) : Bool := dictGet u.tags (pyLowerStr k) == some v

/-- TaggedUrn.with_tag: rejects an empty value. -/
def with_tag (u : TaggedUrn) (k v : Str) : Except UrnError TaggedUrn :=
  if v = [] then .error .emptyTagComponent
  else .ok (mkUrn u.pfx (dictInsert u.tags (pyLowerStr k) v))

/-- TaggedUrn._with_tag_unchecked. -/
def withTagUnchecked (u : TaggedUrn) (k v : Str) : TaggedUrn :=
  mkUrn u.pfx (dictInsert u.tags (pyLowerStr k) v)

/-- TaggedUrn.without_tag: lowercases the key before removal. -/
def without_tag (u : TaggedUrn) (k : Str) : TaggedUrn :=
  mkUrn u.pfx (dictRemove u.tags (pyLowerStr k))

/-- TaggedUrn._values_match, translated branch for branch. -/
def valuesMatch (inst patt : Option Str) : Bool :=
  if patt = none ∨ patt = some strQ then true
  else if inst = some strQ then true
  else if patt = some strBang then
    if inst = none then true
    else if inst = some strBang then true
    else false
  else if inst = some strBang then false
  else if patt = some strStar then
    if inst = none then false else true
  else
    match inst with
    | none => false
    | some v => if v = strStar then true else patt = some v

/-- Union of the key sets of two dicts, as a list. -/
def unionKeys (d1 d2 : List (Str × Str)) : List Str :=
  d1.map Prod.fst ++ (d2.map Prod.fst).filter (fun k => !(d1.map Prod.fst).contains k)

/-- TaggedUrn._check_match: requires equal prefixes, then the conjunction
of the per-key value matches over the union of keys. -/
def checkMatch (instTags : List (Str × Str)) (instPfx : Str)
    (pattTags : List (Str × Str)) (pattPfx : Str) : Except UrnError Bool :=
  if instPfx ≠ pattPfx then .error (.pfxMismatch instPfx pattPfx)
  else .ok ((unionKeys instTags pattTags).all
    (fun k => valuesMatch (dictGet instTags k) (dictGet pattTags k)))

/-- TaggedUrn.conforms_to. -/
def conforms_to (i p : TaggedUrn) : Except UrnError Bool :=
  checkMatch i.tags i.pfx p.tags p.pfx

/-- TaggedUrn.accepts. -/
def accepts (p i : TaggedUrn) : Except UrnError Bool :=
  checkMatch i.tags i.pfx p.tags p.pfx

/-- TaggedUrn._values_compatible, translated branch for branch. -/
def valuesCompatible (v1 v2 : Option Str) : Bool :=
  if v1 = none ∨ v2 = none then true
  else if v1 = some strQ ∨ v2 = some strQ then true
  else if v1 = some strBang ∧ v2 = some strBang then true
  else if v1 = some strBang ∨ v2 = some strBang then false
  else if v1 = some strStar ∧ v2 = some strStar then true
  else if v1 = some strStar ∨ v2 = some strStar then true
  else decide (v1 = v2)

/-- TaggedUrn.is_compatible_with. -/
def is_compatible_with (a b : TaggedUrn) : Except UrnError Bool :=
  if a.pfx ≠ b.pfx then .error (.pfxMismatch a.pfx b.pfx)
  else .ok ((unionKeys a.tags b.tags).all
    (fun k => valuesCompatible (dictGet a.tags k) (dictGet b.tags k)))

/-- TaggedUrn.specificity: sum of the per-tag scores. -/
def specificity (u : TaggedUrn) : Nat :=
  u.tags.foldl (fun s kv =>
    s + (if kv.2 = strQ then 0 else if kv.2 = strBang then 1
         else if kv.2 = strStar then 2 else 3)) 0

/-- TaggedUrn.is_more_specific_than. -/
def is_more_specific_than (a b : TaggedUrn) : Except UrnError Bool :=
  if a.pfx ≠ b.pfx then .error (.pfxMismatch a.pfx b.pfx)
  else
    match is_compatible_with a b with
    | .error e => .error e
    | .ok compat =>
      if !compat then .ok false else .ok (specificity a > specificity b)

/-- TaggedUrn.with_wildcard_tag: raw key membership test, no lowercasing. -/
def with_wildcard_tag (u : TaggedUrn) (k : Str) : TaggedUrn :=
  if (u.tags.map Prod.fst).contains k then withTagUnchecked u k strStar else u

/-- TaggedUrn.subset: raw key membership tests, no lowercasing. -/
def subset (u : TaggedUrn) (keys : List Str) : TaggedUrn :=
  mkUrn u.pfx (keys.foldl (fun d k =>
    match dictGet u.tags k with
    | some v => dictInsert d k v
    | none => d) [])

/-- TaggedUrn.merge: same prefix required, the other side wins conflicts. -/
def merge (a b : TaggedUrn) : Except UrnError TaggedUrn :=
  if a.pfx ≠ b.pfx then .error (.pfxMismatch a.pfx b.pfx)
  else .ok (mkUrn a.pfx (b.tags.foldl (fun d kv => dictInsert d kv.1 kv.2) a.tags))

/-- Loop of UrnMatcher.find_best_match. -/
def findBestLoop (req : TaggedUrn) :
    List TaggedUrn → Option TaggedUrn → Nat → Except UrnError (Option TaggedUrn)
  | [], best, _ => .ok best
  | u :: rest, best, bestSpec =>
    match conforms_to u req with
    | .error e => .error e
    | .ok true =>
      if best.isNone || specificity u > bestSpec then
        findBestLoop req rest (some u) (specificity u)
      else findBestLoop req rest best bestSpec
    | .ok false => findBestLoop req rest best bestSpec

/-- UrnMatcher.find_best_match. -/
def find_best_match (urns : List TaggedUrn) (req : TaggedUrn) :
    Except UrnError (Option TaggedUrn) :=
  findBestLoop req urns none 0

/-- Python dict equality (order-independent), as TaggedUrn.__eq__ compares
the tags attribute. -/
def dictBeq (d1 d2 : List (Str × Str)) : Bool :=
  d1.all (fun kv => dictGet d2 kv.1 == some kv.2) &&
  d2.all (fun kv => dictGet d1 kv.1 == some kv.2)

/-- TaggedUrn.__eq__: equal prefix and equal tag dicts. -/
def urnBeq (a b : TaggedUrn) : Bool := a.pfx == b.pfx && dictBeq a.tags b.tags

/-! Well-formedness predicates used to state the round-trip theorems. -/

/-- A key as produced by the parser or the constructor: nonempty, made of
valid key characters fixed by lowercasing, not purely numeric. -/
def goodKey (k : Str) : Prop :=
  k ≠ [] ∧ (∀ c ∈ k, isValidKeyChar c = true ∧ pyLower c = c) ∧ isPurelyNumeric k = false

/-- Dict invariant for tag mappings: unique keys, good keys, nonempty values. -/
def TagsInv (ts : List (Str × Str)) : Prop :=
  (ts.map Prod.fst).Nodup ∧ ∀ kv ∈ ts, goodKey kv.1 ∧ kv.2 ≠ []

/-- A value whose serialization parses back: nonempty and either quoted on
output or made only of valid unquoted-value characters. -/
def goodVal (v : Str) : Prop :=
  v ≠ [] ∧ (needsQuoting v = true ∨ ∀ c ∈ v, isValidUnquotedValueChar c = true)

/-- A prefix whose serialization parses back: nonempty, free of colons,
fixed by lowercasing, not starting with whitespace. -/
def WFpfx (p : Str) : Prop :=
  p ≠ [] ∧ 58 ∉ p ∧ pyLowerStr p = p ∧ ∀ c, p.head? = some c → isWsp c = false

/-- Well-formed tagged URN: the invariants guaranteed by the parser
together with the serializable-value condition. -/
def WFurn (u : TaggedUrn) : Prop :=
  WFpfx u.pfx ∧ TagsInv u.tags ∧ ∀ kv ∈ u.tags, goodVal kv.2

instance : DecidablePred goodKey := fun k =>
  decidable_of_iff
    (k ≠ [] ∧ (∀ c ∈ k, isValidKeyChar c = true ∧ pyLower c = c) ∧
      isPurelyNumeric k = false) Iff.rfl

instance : DecidablePred TagsInv := fun ts =>
  decidable_of_iff
    ((ts.map Prod.fst).Nodup ∧ ∀ kv ∈ ts, goodKey kv.1 ∧ kv.2 ≠ []) Iff.rfl

instance : DecidablePred goodVal := fun v =>
  decidable_of_iff
    (v ≠ [] ∧ (needsQuoting v = true ∨ ∀ c ∈ v, isValidUnquotedValueChar c = true))
    Iff.rfl

/-! Character-level lemmas. -/

theorem pyLower_idem (c : Nat) : pyLower (pyLower c) = pyLower c := by
  unfold pyLower; split_ifs <;> omega

theorem pyLowerStr_idem (s : Str) : pyLowerStr (pyLowerStr s) = pyLowerStr s := by
  induction s with
  | nil => rfl
  | cons c cs ih =>
    simp only [pyLowerStr, List.map_cons] at ih ⊢
    rw [pyLower_idem, ih]

theorem pyLower_not_upper (c : Nat) : ¬(65 ≤ pyLower c ∧ pyLower c ≤ 90) := by
  unfold pyLower; split_ifs <;> omega

theorem pyLower_valid_key {c : Nat} (h : isValidKeyChar c = true) :
    isValidKeyChar (pyLower c) = true ∧ pyLower (pyLower c) = pyLower c := by
  refine ⟨?_, pyLower_idem c⟩
  by_cases hu : 65 ≤ c ∧ c ≤ 90
  · have hl : pyLower c = c + 32 := by simp [pyLower, hu]
    rw [hl]
    simp only [isValidKeyChar, isAlnumCh, Bool.or_eq_true, Bool.and_eq_true,
      decide_eq_true_eq]
    omega
  · have hl : pyLower c = c := by simp [pyLower, hu]
    rw [hl]; exact h

theorem pyLower_valid_unquoted {c : Nat} (h : isValidUnquotedValueChar c = true) :
    isValidUnquotedValueChar (pyLower c) = true ∧ pyLower (pyLower c) = pyLower c := by
  refine ⟨?_, pyLower_idem c⟩
  by_cases hu : 65 ≤ c ∧ c ≤ 90
  · have hl : pyLower c = c + 32 := by simp [pyLower, hu]
    rw [hl]
    simp only [isValidUnquotedValueChar, isValidKeyChar, isAlnumCh, Bool.or_eq_true,
      Bool.and_eq_true, decide_eq_true_eq]
    omega
  · have hl : pyLower c = c := by simp [pyLower, hu]
    rw [hl]; exact h

theorem valid_key_not_special {c : Nat} (h : isValidKeyChar c = true) :
    c ≠ 59 ∧ c ≠ 61 ∧ c ≠ 34 ∧ isWsp c = false := by
  simp only [isValidKeyChar, isAlnumCh, Bool.or_eq_true, Bool.and_eq_true,
    decide_eq_true_eq] at h
  refine ⟨by omega, by omega, by omega, ?_⟩
  simp only [isWsp, Bool.or_eq_false_iff, decide_eq_false_iff_not]
  omega

theorem valid_unquoted_not_special {c : Nat} (h : isValidUnquotedValueChar c = true) :
    c ≠ 59 ∧ c ≠ 61 ∧ c ≠ 34 ∧ c ≠ 92 ∧ isWsp c = false := by
  simp only [isValidUnquotedValueChar, isValidKeyChar, isAlnumCh, Bool.or_eq_true,
    Bool.and_eq_true, decide_eq_true_eq] at h
  refine ⟨by omega, by omega, by omega, by omega, ?_⟩
  simp only [isWsp, Bool.or_eq_false_iff, decide_eq_false_iff_not]
  omega

theorem not_quoting_char_lower_fixed {c : Nat}
    (h : (c = 59 || c = 61 || c = 34 || c = 92 || c = 32 || (65 ≤ c && c ≤ 90)) = false) :
    pyLower c = c := by
  simp only [Bool.or_eq_false_iff, Bool.and_eq_false_iff, decide_eq_false_iff_not] at h
  unfold pyLower
  split_ifs with hif
  · exact absurd hif (by omega)
  · rfl

theorem pyLower_not_wsp {c : Nat} (h : isWsp c = false) : isWsp (pyLower c) = false := by
  simp only [isWsp, pyLower, Bool.or_eq_false_iff, decide_eq_false_iff_not] at h ⊢
  split_ifs <;> omega

theorem pyLower_ne_colon {c : Nat} (h : c ≠ 58) : pyLower c ≠ 58 := by
  simp only [pyLower]; split_ifs <;> omega

/-! Dict lemmas. -/

theorem dictGet_eq_none {d : List (Str × Str)} {k : Str} :
    dictGet d k = none ↔ k ∉ d.map Prod.fst := by
  induction d with
  | nil => simp [dictGet]
  | cons kv d ih =>
    obtain ⟨k', v'⟩ := kv
    by_cases h : k' = k
    · subst h; simp [dictGet]
    · simp only [dictGet, if_neg h, List.map_cons, List.mem_cons, not_or, ih]
      constructor
      · intro hn; exact ⟨fun he => h he.symm, hn⟩
      · intro hn; exact hn.2

theorem dictGet_some_mem {d : List (Str × Str)} {k v : Str}
    (h : dictGet d k = some v) : (k, v) ∈ d := by
  induction d with
  | nil => simp [dictGet] at h
  | cons kv d ih =>
    obtain ⟨k', v'⟩ := kv
    by_cases hk : k' = k
    · subst hk; simp [dictGet] at h; simp [h]
    · simp [dictGet, hk] at h; exact List.mem_cons_of_mem _ (ih h)

theorem dictGet_append_left {d1 d2 : List (Str × Str)} {k : Str}
    (h : k ∈ d1.map Prod.fst) : dictGet (d1 ++ d2) k = dictGet d1 k := by
  induction d1 with
  | nil => simp at h
  | cons kv d ih =>
    obtain ⟨k', v'⟩ := kv
    by_cases hk : k' = k
    · simp [dictGet, hk]
    · simp only [List.map_cons, List.mem_cons] at h
      rcases h with h | h
      · exact absurd h.symm hk
      · simp [dictGet, hk, ih h]

theorem dictGet_append_right {d1 d2 : List (Str × Str)} {k : Str}
    (h : k ∉ d1.map Prod.fst) : dictGet (d1 ++ d2) k = dictGet d2 k := by
  induction d1 with
  | nil => simp
  | cons kv d ih =>
    obtain ⟨k', v'⟩ := kv
    simp only [List.map_cons, List.mem_cons, not_or] at h
    simp [dictGet, Ne.symm h.1, ih h.2]

theorem dictInsert_not_mem {d : List (Str × Str)} {k : Str} (v : Str)
    (h : k ∉ d.map Prod.fst) : dictInsert d k v = d ++ [(k, v)] := by
  induction d with
  | nil => rfl
  | cons kv d ih =>
    obtain ⟨k', v'⟩ := kv
    simp only [List.map_cons, List.mem_cons, not_or] at h
    simp [dictInsert, Ne.symm h.1, ih h.2]

/-- Folding the constructor's normalizing insert over tags whose keys are
already lowercase and unique just appends them. -/
theorem foldl_dictInsert_normal :
    ∀ (ts acc : List (Str × Str)),
      (ts.map Prod.fst).Nodup →
      (∀ kv ∈ ts, pyLowerStr kv.1 = kv.1) →
      (∀ k ∈ ts.map Prod.fst, k ∉ acc.map Prod.fst) →
      ts.foldl (fun d kv => dictInsert d (pyLowerStr kv.1) kv.2) acc = acc ++ ts := by
  intro ts
  induction ts with
  | nil => intro acc _ _ _; simp
  | cons kv ts ih =>
    intro acc hnd hlow hdisj
    obtain ⟨k, v⟩ := kv
    simp only [List.map_cons, List.nodup_cons] at hnd
    have hk : pyLowerStr k = k := hlow (k, v) (List.mem_cons_self _ _)
    have hkacc : k ∉ acc.map Prod.fst := hdisj k (by simp)
    simp only [List.foldl_cons, hk, dictInsert_not_mem v hkacc]
    rw [ih (acc ++ [(k, v)]) hnd.2 (fun kv h => hlow kv (List.mem_cons_of_mem _ h))]
    · simp
    · intro k' hk'
      simp only [List.map_append, List.mem_append, List.map_cons, List.map_nil,
        List.mem_singleton, not_or]
      exact ⟨fun h => hdisj k' (by simp [hk']) h, fun h => hnd.1 (h ▸ hk')⟩

/-- On already-normalized input the constructor is the identity packaging. -/
theorem mkUrn_normal {p : Str} {ts : List (Str × Str)}
    (hp : pyLowerStr p = p) (hnd : (ts.map Prod.fst).Nodup)
    (hlow : ∀ kv ∈ ts, pyLowerStr kv.1 = kv.1) :
    mkUrn p ts = ⟨p, ts⟩ := by
  unfold mkUrn
  rw [hp, foldl_dictInsert_normal ts [] hnd hlow (by simp)]
  rfl

/-! Order lemmas for the tuple comparison used by sorting. -/

theorem strLtB_asymm {a : Str} : ∀ {b : Str}, strLtB a b = true → strLtB b a = false := by
  induction a with
  | nil => intro b h; cases b <;> simp_all [strLtB]
  | cons x xs ih =>
    intro b h
    cases b with
    | nil => simp [strLtB] at h
    | cons y ys =>
      simp only [strLtB] at h ⊢
      by_cases h1 : x < y
      · have h2 : ¬y < x := by omega
        simp [h1, h2]
      · by_cases h2 : y < x
        · simp [h1, h2] at h
        · simp only [if_neg h1, if_neg h2] at h ⊢
          exact ih h

theorem strLtB_trans : ∀ {a b c : Str},
    strLtB a b = true → strLtB b c = true → strLtB a c = true := by
  intro a
  induction a with
  | nil =>
    intro b c hab hbc
    cases b with
    | nil => simp [strLtB] at hab
    | cons y ys => cases c <;> simp_all [strLtB]
  | cons x xs ih =>
    intro b c hab hbc
    cases b with
    | nil => simp [strLtB] at hab
    | cons y ys =>
      cases c with
      | nil => simp [strLtB] at hbc
      | cons z zs =>
        simp only [strLtB] at hab hbc ⊢
        by_cases h1 : x < y
        · by_cases h2 : y < z
          · simp [show x < z by omega]
          · by_cases h3 : z < y
            · simp [h2, h3] at hbc
            · have : y = z := by omega
              subst this
              simp [h1]
        · by_cases h2 : y < x
          · simp [h1, h2] at hab
          · have hxy : x = y := by omega
            subst hxy
            simp only [if_neg h1, if_neg h2] at hab
            by_cases h3 : x < z
            · simp [h3]
            · by_cases h4 : z < x
              · simp [h3, h4] at hbc
              · simp only [if_neg h3, if_neg h4] at hbc ⊢
                exact ih hab hbc

theorem strLtB_conn : ∀ {a b : Str},
    strLtB a b = false → strLtB b a = false → a = b := by
  intro a
  induction a with
  | nil =>
    intro b h1 _
    cases b with
    | nil => rfl
    | cons y ys => simp [strLtB] at h1
  | cons x xs ih =>
    intro b h1 h2
    cases b with
    | nil => simp [strLtB] at h2
    | cons y ys =>
      simp only [strLtB] at h1 h2
      by_cases hx : x < y
      · simp [hx] at h1
      · by_cases hy : y < x
        · simp [hx, hy] at h2
        · have hxy : x = y := by omega
          subst hxy
          simp only [if_neg hx] at h1 h2
          rw [ih h1 h2]

theorem strLeB_refl (a : Str) : strLeB a a = true := by
  simp [strLeB]

theorem strLeB_total (a b : Str) : strLeB a b = true ∨ strLeB b a = true := by
  by_cases h1 : strLtB a b = true
  · exact Or.inl (by simp [strLeB, h1])
  · by_cases h2 : strLtB b a = true
    · exact Or.inr (by simp [strLeB, h2])
    · left
      have := strLtB_conn (Bool.not_eq_true _ ▸ h1 : strLtB a b = false)
        (Bool.not_eq_true _ ▸ h2 : strLtB b a = false)
      simp [strLeB, this]

theorem strLeB_trans {a b c : Str} (h1 : strLeB a b = true) (h2 : strLeB b c = true) :
    strLeB a c = true := by
  simp only [strLeB, Bool.or_eq_true, decide_eq_true_eq] at h1 h2 ⊢
  rcases h1 with h1 | h1
  · rcases h2 with h2 | h2
    · exact Or.inl (strLtB_trans h1 h2)
    · subst h2; exact Or.inl h1
  · subst h1; exact h2

theorem strLeB_antisymm {a b : Str} (h1 : strLeB a b = true) (h2 : strLeB b a = true) :
    a = b := by
  simp only [strLeB, Bool.or_eq_true, decide_eq_true_eq] at h1 h2
  rcases h1 with h1 | h1
  · rcases h2 with h2 | h2
    · have := strLtB_asymm h1
      rw [h2] at this
      cases this
    · exact h2.symm
  · exact h1

instance : IsTotal (Str × Str) tagLe where
  total p q := by
    unfold tagLe
    by_cases h : p.1 = q.1
    · rw [if_pos h, if_pos h.symm]
      exact strLeB_total p.2 q.2
    · rw [if_neg h, if_neg (Ne.symm h)]
      by_cases h1 : strLtB p.1 q.1 = true
      · exact Or.inl h1
      · by_cases h2 : strLtB q.1 p.1 = true
        · exact Or.inr h2
        · exact absurd (strLtB_conn (Bool.not_eq_true _ ▸ h1) (Bool.not_eq_true _ ▸ h2)) h

instance : IsTrans (Str × Str) tagLe where
  trans p q r := by
    unfold tagLe
    by_cases hpq : p.1 = q.1
    · by_cases hqr : q.1 = r.1
      · rw [if_pos hpq, if_pos hqr, if_pos (hpq.trans hqr)]
        exact strLeB_trans
      · rw [if_pos hpq, if_neg hqr, if_neg (hpq ▸ hqr)]
        intro _ h
        exact hpq ▸ h
    · by_cases hqr : q.1 = r.1
      · rw [if_neg hpq, if_pos hqr, if_neg (hqr ▸ hpq)]
        intro h _
        exact hqr ▸ h
      · rw [if_neg hpq, if_neg hqr]
        intro h1 h2
        have hpr : strLtB p.1 r.1 = true := strLtB_trans h1 h2
        have : p.1 ≠ r.1 := by
          intro he
          have := strLtB_asymm h1
          rw [he] at this
          rw [h2] at this
          cases this
        rw [if_neg this]
        exact hpr

instance : IsAntisymm (Str × Str) tagLe where
  antisymm p q := by
    unfold tagLe
    by_cases h : p.1 = q.1
    · rw [if_pos h, if_pos h.symm]
      intro h1 h2
      obtain ⟨p1, p2⟩ := p
      obtain ⟨q1, q2⟩ := q
      simp only at h h1 h2
      subst h
      rw [strLeB_antisymm h1 h2]
    · rw [if_neg h, if_neg (Ne.symm h)]
      intro h1 h2
      have := strLtB_asymm h1
      rw [h2] at this
      cases this

/-! Dict lookups are stable under permutation when keys are unique. -/

theorem dictGet_perm : ∀ {d1 d2 : List (Str × Str)}, d1.Perm d2 →
    (d1.map Prod.fst).Nodup → ∀ k, dictGet d1 k = dictGet d2 k := by
  intro d1 d2 h
  induction h with
  | nil => intro _ _; rfl
  | cons x h ih =>
    intro hnd k
    obtain ⟨kx, vx⟩ := x
    simp only [List.map_cons, List.nodup_cons] at hnd
    by_cases hk : kx = k
    · simp [dictGet, hk]
    · simp [dictGet, hk, ih hnd.2 k]
  | swap x y l =>
    intro hnd k
    obtain ⟨kx, vx⟩ := x
    obtain ⟨ky, vy⟩ := y
    simp only [List.map_cons, List.nodup_cons, List.mem_cons, not_or] at hnd
    by_cases hky : ky = k
    · subst hky
      simp [dictGet, Ne.symm hnd.1.1]
    · by_cases hkx : kx = k <;> simp [dictGet, hkx, hky]
  | trans h1 h2 ih1 ih2 =>
    intro hnd k
    have hnd2 := ((h1.map Prod.fst).nodup_iff).mp hnd
    rw [ih1 hnd k, ih2 hnd2 k]

theorem dictGet_of_mem_nodup : ∀ {d : List (Str × Str)} {k v : Str},
    (d.map Prod.fst).Nodup → (k, v) ∈ d → dictGet d k = some v := by
  intro d
  induction d with
  | nil => intro k v _ hm; cases hm
  | cons kv d ih =>
    intro k v hnd hm
    obtain ⟨k', v'⟩ := kv
    simp only [List.map_cons, List.nodup_cons] at hnd
    rcases List.mem_cons.mp hm with he | hm
    · obtain ⟨hk, hv⟩ := Prod.mk.injEq .. ▸ he
      subst hk; subst hv
      simp [dictGet]
    · have hk : k' ≠ k := by
        intro he
        subst he
        exact hnd.1 (List.mem_map.mpr ⟨(k', v), hm, rfl⟩)
      simp [dictGet, hk, ih hnd.2 hm]

/-- Permuted tag dicts with unique keys compare equal as Python dicts. -/
theorem dictBeq_of_perm {d1 d2 : List (Str × Str)} (h : d1.Perm d2)
    (hnd : (d1.map Prod.fst).Nodup) : dictBeq d1 d2 = true := by
  have hnd2 : (d2.map Prod.fst).Nodup := ((h.map Prod.fst).nodup_iff).mp hnd
  have hget := dictGet_perm h hnd
  unfold dictBeq
  rw [Bool.and_eq_true]
  constructor
  · rw [List.all_eq_true]
    intro kv hm
    rw [← hget kv.1, beq_iff_eq]
    exact dictGet_of_mem_nodup hnd (by exact hm)
  · rw [List.all_eq_true]
    intro kv hm
    rw [hget kv.1, beq_iff_eq]
    exact dictGet_of_mem_nodup hnd2 (by exact hm)

/-! Parser invariants: every successful parse yields well-formed keys,
unique keys, and nonempty values. -/

theorem lowerStr_fixed {k : Str} (h : ∀ c ∈ k, pyLower c = c) : pyLowerStr k = k := by
  induction k with
  | nil => rfl
  | cons c cs ih =>
    simp only [pyLowerStr, List.map_cons] at ih ⊢
    rw [h c (by simp), ih (fun c' hc' => h c' (List.mem_cons_of_mem _ hc'))]

theorem finishTag_inv {tags : List (Str × Str)} {k v : Str} {out : List (Str × Str)}
    (ht : TagsInv tags) (hk : ∀ c ∈ k, isValidKeyChar c = true ∧ pyLower c = c)
    (h : finishTag tags k v = .ok out) :
    TagsInv out ∧ out = tags ++ [(k, v)] := by
  unfold finishTag at h
  split_ifs at h with h1 h2 h3 h4
  have h3' : k ∉ tags.map Prod.fst := by simpa using h3
  obtain rfl : tags ++ [(k, v)] = out := by injection h
  refine ⟨⟨?_, ?_⟩, rfl⟩
  · simp only [List.map_append, List.map_cons, List.map_nil]
    rw [List.nodup_append]
    refine ⟨ht.1, List.nodup_singleton k, ?_⟩
    intro a ha hb
    simp only [List.mem_singleton] at hb
    subst hb
    exact h3' ha
  · intro kv hm
    rcases List.mem_append.mp hm with hm | hm
    · exact ht.2 kv hm
    · simp only [List.mem_singleton] at hm
      subst hm
      exact ⟨⟨h1, hk, Bool.not_eq_true _ ▸ h4⟩, h2⟩

theorem parseLoop_inv : ∀ (cs : Str) (st : ParseState) (tags : List (Str × Str))
    (curKey curVal : Str) (out : List (Str × Str)),
    TagsInv tags → (∀ c ∈ curKey, isValidKeyChar c = true ∧ pyLower c = c) →
    parseLoop st tags curKey curVal cs = .ok out → TagsInv out := by
  intro cs
  induction cs with
  | nil =>
    intro st tags curKey curVal out ht hk h
    cases st <;> simp only [parseLoop] at h
    case expectingKey => cases h; exact ht
    case inKey =>
      split_ifs at h
      all_goals
        first
        | exact Except.noConfusion h
        | exact (finishTag_inv ht hk h).1
    case expectingValue => exact Except.noConfusion h
    case inUnquotedValue => exact (finishTag_inv ht hk h).1
    case inQuotedValue => exact Except.noConfusion h
    case inQuotedValueEscape => exact Except.noConfusion h
    case expectingSemiOrEnd => exact (finishTag_inv ht hk h).1
  | cons c cs ih =>
    intro st tags curKey curVal out ht hk h
    have hkext : ∀ h1 : isValidKeyChar c = true, ∀ c' ∈ curKey ++ [pyLower c],
        isValidKeyChar c' = true ∧ pyLower c' = c' := by
      intro h1 c' hc'
      rcases List.mem_append.mp hc' with hc' | hc'
      · exact hk c' hc'
      · simp only [List.mem_singleton] at hc'
        subst hc'
        exact pyLower_valid_key h1
    cases st <;> simp only [parseLoop] at h <;> split_ifs at h <;>
      first
      | exact Except.noConfusion h
      | exact ih _ _ _ _ _ ht hk h
      | exact ih _ _ _ _ _ ht (hkext (by assumption)) h
      | (cases hft : finishTag tags curKey strStar with
         | error e => rw [hft] at h; exact Except.noConfusion h
         | ok tags' =>
           rw [hft] at h
           exact ih _ _ _ _ _ (finishTag_inv ht hk hft).1 (by simp) h)
      | (cases hft : finishTag tags curKey curVal with
         | error e => rw [hft] at h; exact Except.noConfusion h
         | ok tags' =>
           rw [hft] at h
           exact ih _ _ _ _ _ (finishTag_inv ht hk hft).1 (by simp) h)

/-! Structure of splitAtColon and pyStrip. -/

theorem splitAtColon_some : ∀ {s before after : Str},
    splitAtColon s = some (before, after) → s = before ++ 58 :: after ∧ 58 ∉ before := by
  intro s
  induction s with
  | nil => intro before after h; cases h
  | cons c cs ih =>
    intro before after h
    by_cases hc : c = 58
    · subst hc
      simp only [splitAtColon, if_pos rfl, Option.some.injEq, Prod.mk.injEq] at h
      obtain ⟨rfl, rfl⟩ := h
      simp
    · simp only [splitAtColon, if_neg hc] at h
      cases hsp : splitAtColon cs with
      | none => rw [hsp] at h; exact Option.noConfusion h
      | some ab =>
        obtain ⟨a, b⟩ := ab
        rw [hsp] at h
        simp only [Option.map, Option.some.injEq, Prod.mk.injEq] at h
        obtain ⟨h1, h2⟩ := h
        subst h1
        subst h2
        obtain ⟨he, hn⟩ := ih hsp
        constructor
        · rw [List.cons_append, ← he]
        · simp only [List.mem_cons, not_or]
          exact ⟨fun hx => hc hx.symm, hn⟩

theorem splitAtColon_eq_none {s : Str} (h : 58 ∉ s) : splitAtColon s = none := by
  induction s with
  | nil => rfl
  | cons c cs ih =>
    simp only [List.mem_cons, not_or] at h
    have hc : ¬c = 58 := fun hx => h.1 hx.symm
    simp [splitAtColon, hc, ih h.2]

theorem dropWhile_eq_self {p : Nat → Bool} {s : Str}
    (h : ∀ c, s.head? = some c → p c = false) : s.dropWhile p = s := by
  cases s with
  | nil => rfl
  | cons c cs => simp [List.dropWhile_cons, h c rfl]

theorem pyStrip_eq_self {s : Str} (h1 : ∀ c, s.head? = some c → isWsp c = false)
    (h2 : ∀ c, s.getLast? = some c → isWsp c = false) : pyStrip s = s := by
  unfold pyStrip
  rw [dropWhile_eq_self h1]
  rw [dropWhile_eq_self (by intro c hc; exact h2 c (by rwa [List.head?_reverse] at hc))]
  exact List.reverse_reverse s

theorem pyStrip_head {s : Str} (h : s = pyStrip s) :
    ∀ c, s.head? = some c → isWsp c = false := by
  intro c hc
  by_contra hw
  have hw' : isWsp c = true := by
    cases hx : isWsp c
    · exact absurd hx hw
    · rfl
  cases s with
  | nil => exact Option.noConfusion hc
  | cons a t =>
    have ha : a = c := by
      simp only [List.head?_cons, Option.some.injEq] at hc
      exact hc
    subst ha
    have hlen : (pyStrip (a :: t)).length ≤ t.length := by
      unfold pyStrip
      rw [List.dropWhile_cons, if_pos hw']
      calc ((t.dropWhile isWsp).reverse.dropWhile isWsp).reverse.length
          ≤ (t.dropWhile isWsp).reverse.length := by
            conv_lhs => rw [List.length_reverse]
            exact (List.dropWhile_sublist isWsp).length_le
        _ ≤ t.length := by
            rw [List.length_reverse]
            exact (List.dropWhile_sublist isWsp).length_le
    rw [← h] at hlen
    simp at hlen

theorem TagsInv_nil : TagsInv [] :=
  ⟨List.nodup_nil, fun kv hm => absurd hm (List.not_mem_nil kv)⟩

theorem mem_pyLowerStr_ne_colon {before : Str} (hn : 58 ∉ before) :
    58 ∉ pyLowerStr before := by
  intro hm
  obtain ⟨c, hc, he⟩ := List.mem_map.mp hm
  exact pyLower_ne_colon (fun h58 => hn (h58 ▸ hc)) he

theorem WFpfx_of_split {s before after : Str} (hstrip : s = pyStrip s)
    (hsp : splitAtColon s = some (before, after)) (hne : before ≠ []) :
    WFpfx (pyLowerStr before) := by
  obtain ⟨he, hn⟩ := splitAtColon_some hsp
  cases before with
  | nil => exact absurd rfl hne
  | cons b bt =>
    refine ⟨by simp [pyLowerStr], mem_pyLowerStr_ne_colon hn, pyLowerStr_idem _, ?_⟩
    intro c hc
    simp only [pyLowerStr, List.map_cons, List.head?_cons, Option.some.injEq] at hc
    subst hc
    have hsb : isWsp b = false := pyStrip_head hstrip b (by rw [he]; rfl)
    exact pyLower_not_wsp hsb

/-- Every successful parse produces a well-formed prefix and tag dict. -/
theorem from_string_wf {s : Str} {u : TaggedUrn} (h : from_string s = .ok u) :
    WFpfx u.pfx ∧ TagsInv u.tags := by
  unfold from_string at h
  by_cases hws : s ≠ pyStrip s
  · rw [if_pos hws] at h
    exact Except.noConfusion h
  · rw [if_neg hws] at h
    by_cases hemp : s = []
    · rw [if_pos hemp] at h
      exact Except.noConfusion h
    · rw [if_neg hemp] at h
      cases hsp : splitAtColon s with
      | none =>
        rw [hsp] at h
        exact Except.noConfusion h
      | some ba =>
        obtain ⟨before, after⟩ := ba
        rw [hsp] at h
        dsimp only at h
        by_cases hbe : before = []
        · rw [if_pos hbe] at h
          exact Except.noConfusion h
        · rw [if_neg hbe] at h
          have hstrip : s = pyStrip s := not_not.mp hws
          have hwf := WFpfx_of_split hstrip hsp hbe
          by_cases hta : after = [] ∨ after = [59]
          · rw [if_pos hta] at h
            have hu : mkUrn (pyLowerStr before) [] = u := by injection h
            subst hu
            have hmk : mkUrn (pyLowerStr before) [] = ⟨pyLowerStr before, []⟩ := by
              unfold mkUrn
              rw [pyLowerStr_idem]
              rfl
            rw [hmk]
            exact ⟨hwf, TagsInv_nil⟩
          · rw [if_neg hta] at h
            cases hpl : parseLoop .expectingKey [] [] [] after with
            | error e =>
              rw [hpl] at h
              exact Except.noConfusion h
            | ok tags =>
              rw [hpl] at h
              have hu : mkUrn (pyLowerStr before) tags = u := by injection h
              subst hu
              have htinv : TagsInv tags :=
                parseLoop_inv after .expectingKey [] [] [] tags TagsInv_nil
                  (fun c hc => absurd hc (List.not_mem_nil c)) hpl
              have hmk : mkUrn (pyLowerStr before) tags = ⟨pyLowerStr before, tags⟩ :=
                mkUrn_normal (pyLowerStr_idem before) htinv.1
                  (fun kv hm => lowerStr_fixed (fun c hc => ((htinv.2 kv hm).1.2.1 c hc).2))
              rw [hmk]
              exact ⟨hwf, htinv⟩

/-! Serialization parses back: run lemmas for the state machine. -/

theorem finishTag_ok {acc : List (Str × Str)} {k v : Str} (hk : goodKey k) (hv : v ≠ [])
    (hnm : k ∉ acc.map Prod.fst) : finishTag acc k v = .ok (acc ++ [(k, v)]) := by
  have hc : ¬((acc.map Prod.fst).contains k = true) := by simpa using hnm
  unfold finishTag
  rw [if_neg hk.1, if_neg hv, if_neg hc, if_neg (by simp [hk.2.2])]

theorem key_run : ∀ (ks cur : Str) (acc : List (Str × Str)) (rest : Str),
    (∀ c ∈ ks, isValidKeyChar c = true ∧ pyLower c = c) →
    parseLoop .inKey acc cur [] (ks ++ rest) = parseLoop .inKey acc (cur ++ ks) [] rest := by
  intro ks
  induction ks with
  | nil => intro cur acc rest _; simp
  | cons c ks ih =>
    intro cur acc rest hks
    obtain ⟨hv, hl⟩ := hks c (by simp)
    obtain ⟨h59, h61, _, _⟩ := valid_key_not_special hv
    rw [List.cons_append]
    simp only [parseLoop]
    rw [if_neg h61, if_neg h59, if_pos hv, hl,
      ih (cur ++ [c]) acc rest (fun c' hc' => hks c' (List.mem_cons_of_mem _ hc')),
      List.append_assoc]
    rfl

theorem value_run : ∀ (vs cur : Str) (k : Str) (acc : List (Str × Str)) (rest : Str),
    (∀ c ∈ vs, isValidUnquotedValueChar c = true ∧ pyLower c = c) →
    parseLoop .inUnquotedValue acc k cur (vs ++ rest) =
      parseLoop .inUnquotedValue acc k (cur ++ vs) rest := by
  intro vs
  induction vs with
  | nil => intro cur k acc rest _; simp
  | cons c vs ih =>
    intro cur k acc rest hvs
    obtain ⟨hv, hl⟩ := hvs c (by simp)
    obtain ⟨h59, _, _, _, _⟩ := valid_unquoted_not_special hv
    rw [List.cons_append]
    simp only [parseLoop]
    rw [if_neg h59, if_pos hv, hl,
      ih (cur ++ [c]) k acc rest (fun c' hc' => hvs c' (List.mem_cons_of_mem _ hc')),
      List.append_assoc]
    rfl

theorem quoted_run : ∀ (v cur : Str) (k : Str) (acc : List (Str × Str)) (rest : Str),
    parseLoop .inQuotedValue acc k cur (escapeStr v ++ rest) =
      parseLoop .inQuotedValue acc k (cur ++ v) rest := by
  intro v
  induction v with
  | nil => intro cur k acc rest; simp [escapeStr]
  | cons c vs ih =>
    intro cur k acc rest
    by_cases hc : c = 34 ∨ c = 92
    · have he : escapeStr (c :: vs) = 92 :: c :: escapeStr vs := by
        unfold escapeStr
        rw [List.map_cons, List.flatten_cons, if_pos hc]
        rfl
      have h0 : parseLoop .inQuotedValue acc k cur (92 :: c :: (escapeStr vs ++ rest)) =
          parseLoop .inQuotedValueEscape acc k cur (c :: (escapeStr vs ++ rest)) := rfl
      have h1 : parseLoop .inQuotedValueEscape acc k cur (c :: (escapeStr vs ++ rest)) =
          if c = 34 ∨ c = 92 then
            parseLoop .inQuotedValue acc k (cur ++ [c]) (escapeStr vs ++ rest)
          else .error .invalidEscapeSequence := rfl
      rw [he, List.cons_append, List.cons_append, h0, h1, if_pos hc,
        ih (cur ++ [c]) k acc rest, List.append_assoc]
      rfl
    · have he : escapeStr (c :: vs) = c :: escapeStr vs := by
        unfold escapeStr
        rw [List.map_cons, List.flatten_cons, if_neg hc]
        rfl
      push_neg at hc
      have h0 : parseLoop .inQuotedValue acc k cur (c :: (escapeStr vs ++ rest)) =
          if c = 34 then parseLoop .expectingSemiOrEnd acc k cur (escapeStr vs ++ rest)
          else if c = 92 then parseLoop .inQuotedValueEscape acc k cur (escapeStr vs ++ rest)
          else parseLoop .inQuotedValue acc k (cur ++ [c]) (escapeStr vs ++ rest) := rfl
      rw [he, List.cons_append, h0, if_neg hc.1, if_neg hc.2,
        ih (cur ++ [c]) k acc rest, List.append_assoc]
      rfl

theorem key_entry {k : Str} (acc : List (Str × Str)) (rest : Str) (hk : goodKey k) :
    parseLoop .expectingKey acc [] [] (k ++ rest) = parseLoop .inKey acc k [] rest := by
  cases k with
  | nil => exact absurd rfl hk.1
  | cons kc kt =>
    obtain ⟨hv, hl⟩ := hk.2.1 kc (by simp)
    obtain ⟨h59, _, _, _⟩ := valid_key_not_special hv
    rw [List.cons_append]
    simp only [parseLoop]
    rw [if_neg h59, if_pos hv, hl, List.nil_append,
      key_run kt [kc] acc rest (fun c' hc' => hk.2.1 c' (List.mem_cons_of_mem _ hc'))]
    rfl

theorem key_eq_step {k : Str} (acc : List (Str × Str)) (rest : Str) (hk : goodKey k) :
    parseLoop .inKey acc k [] (61 :: rest) = parseLoop .expectingValue acc k [] rest := by
  have h0 : parseLoop .inKey acc k [] (61 :: rest) =
      if k = [] then .error .emptyTagComponent
      else parseLoop .expectingValue acc k [] rest := rfl
  rw [h0, if_neg hk.1]

theorem end_inKey_nil {k : Str} {acc : List (Str × Str)} (hk : goodKey k)
    (hnm : k ∉ acc.map Prod.fst) :
    parseLoop .inKey acc k [] [] = .ok (acc ++ [(k, strStar)]) := by
  simp only [parseLoop]
  rw [if_neg hk.1, finishTag_ok hk (by simp [strStar]) hnm]

theorem end_inKey_semi {k : Str} {acc : List (Str × Str)} (r2 : Str) (hk : goodKey k)
    (hnm : k ∉ acc.map Prod.fst) :
    parseLoop .inKey acc k [] (59 :: r2) =
      parseLoop .expectingKey (acc ++ [(k, strStar)]) [] [] r2 := by
  have h0 : parseLoop .inKey acc k [] (59 :: r2) =
      if k = [] then .error .emptyTagComponent
      else
        match finishTag acc k strStar with
        | .error e => .error e
        | .ok tags' => parseLoop .expectingKey tags' [] [] r2 := rfl
  rw [h0, if_neg hk.1, finishTag_ok hk (by simp [strStar]) hnm]

theorem end_unq_nil {k v : Str} {acc : List (Str × Str)} (hk : goodKey k) (hv : v ≠ [])
    (hnm : k ∉ acc.map Prod.fst) :
    parseLoop .inUnquotedValue acc k v [] = .ok (acc ++ [(k, v)]) := by
  simp only [parseLoop]
  rw [finishTag_ok hk hv hnm]

theorem end_unq_semi {k v : Str} {acc : List (Str × Str)} (r2 : Str) (hk : goodKey k)
    (hv : v ≠ []) (hnm : k ∉ acc.map Prod.fst) :
    parseLoop .inUnquotedValue acc k v (59 :: r2) =
      parseLoop .expectingKey (acc ++ [(k, v)]) [] [] r2 := by
  have h0 : parseLoop .inUnquotedValue acc k v (59 :: r2) =
      match finishTag acc k v with
      | .error e => .error e
      | .ok tags' => parseLoop .expectingKey tags' [] [] r2 := rfl
  rw [h0, finishTag_ok hk hv hnm]

theorem end_semiState_nil {k v : Str} {acc : List (Str × Str)} (hk : goodKey k) (hv : v ≠ [])
    (hnm : k ∉ acc.map Prod.fst) :
    parseLoop .expectingSemiOrEnd acc k v [] = .ok (acc ++ [(k, v)]) := by
  simp only [parseLoop]
  rw [finishTag_ok hk hv hnm]

theorem end_semiState_semi {k v : Str} {acc : List (Str × Str)} (r2 : Str) (hk : goodKey k)
    (hv : v ≠ []) (hnm : k ∉ acc.map Prod.fst) :
    parseLoop .expectingSemiOrEnd acc k v (59 :: r2) =
      parseLoop .expectingKey (acc ++ [(k, v)]) [] [] r2 := by
  have h0 : parseLoop .expectingSemiOrEnd acc k v (59 :: r2) =
      match finishTag acc k v with
      | .error e => .error e
      | .ok tags' => parseLoop .expectingKey tags' [] [] r2 := rfl
  rw [h0, finishTag_ok hk hv hnm]

theorem reach_unq {k v : Str} (acc : List (Str × Str)) (r : Str) (hk : goodKey k)
    (hv1 : v ≠ []) (hall : ∀ c ∈ v, isValidUnquotedValueChar c = true ∧ pyLower c = c) :
    parseLoop .expectingKey acc [] [] ((k ++ 61 :: v) ++ r) =
      parseLoop .inUnquotedValue acc k v r := by
  rw [List.append_assoc, List.cons_append, key_entry acc _ hk, key_eq_step acc _ hk]
  cases v with
  | nil => exact absurd rfl hv1
  | cons vc vt =>
    obtain ⟨hv, hl⟩ := hall vc (by simp)
    obtain ⟨h59, _, h34, _, _⟩ := valid_unquoted_not_special hv
    rw [List.cons_append]
    simp only [parseLoop]
    rw [if_neg h34, if_neg h59, if_pos hv, hl, List.nil_append,
      value_run vt [vc] k acc r (fun c' hc' => hall c' (List.mem_cons_of_mem _ hc'))]
    rfl

theorem reach_quoted {k : Str} (v : Str) (acc : List (Str × Str)) (r : Str)
    (hk : goodKey k) :
    parseLoop .expectingKey acc [] [] ((k ++ 61 :: quoteValue v) ++ r) =
      parseLoop .expectingSemiOrEnd acc k v r := by
  rw [List.append_assoc, List.cons_append, key_entry acc _ hk, key_eq_step acc _ hk]
  unfold quoteValue
  rw [List.cons_append]
  have h0 : parseLoop .expectingValue acc k [] (34 :: ((escapeStr v ++ [34]) ++ r)) =
      parseLoop .inQuotedValue acc k [] ((escapeStr v ++ [34]) ++ r) := rfl
  rw [h0, List.append_assoc]
  rw [show ([34] : Str) ++ r = 34 :: r from rfl]
  rw [quoted_run v [] k acc (34 :: r), List.nil_append]
  have h1 : parseLoop .inQuotedValue acc k v (34 :: r) =
      parseLoop .expectingSemiOrEnd acc k v r := rfl
  rw [h1]

/-- One serialized tag, followed by nothing or by a semicolon and more
input, parses as that tag. -/
theorem tag_step {k v : Str} (acc : List (Str × Str)) (r : Str) (hk : goodKey k)
    (hv : goodVal v) (hnm : k ∉ acc.map Prod.fst) :
    parseLoop .expectingKey acc [] [] (emitTag (k, v)) = .ok (acc ++ [(k, v)]) ∧
    parseLoop .expectingKey acc [] [] (emitTag (k, v) ++ 59 :: r) =
      parseLoop .expectingKey (acc ++ [(k, v)]) [] [] r := by
  by_cases h1 : v = strStar
  · subst h1
    have he : emitTag (k, strStar) = k := by
      unfold emitTag; dsimp only
      rw [if_pos rfl]
    constructor
    · conv_lhs => rw [he, ← List.append_nil k]
      rw [key_entry acc [] hk]
      exact end_inKey_nil hk hnm
    · rw [he, key_entry acc _ hk]
      exact end_inKey_semi r hk hnm
  · by_cases h4 : needsQuoting v = true
    · have h2 : v ≠ strQ := by
        intro hx
        rw [hx] at h4
        exact absurd h4 (by decide)
      have h3 : v ≠ strBang := by
        intro hx
        rw [hx] at h4
        exact absurd h4 (by decide)
      have he : emitTag (k, v) = k ++ 61 :: quoteValue v := by
        unfold emitTag; dsimp only
        rw [if_neg h1, if_neg h2, if_neg h3, if_pos h4, List.append_assoc]
        rfl
      constructor
      · conv_lhs => rw [he, ← List.append_nil (k ++ 61 :: quoteValue v)]
        rw [reach_quoted v acc [] hk]
        exact end_semiState_nil hk hv.1 hnm
      · rw [he, reach_quoted v acc _ hk]
        exact end_semiState_semi r hk hv.1 hnm
    · have hq : needsQuoting v = false := by
        cases hx : needsQuoting v
        · rfl
        · exact absurd hx h4
      have hvalid : ∀ c ∈ v, isValidUnquotedValueChar c = true := by
        rcases hv.2 with hx | hx
        · rw [hq] at hx
          exact absurd hx (by decide)
        · exact hx
      have hall : ∀ c ∈ v, isValidUnquotedValueChar c = true ∧ pyLower c = c := by
        intro c hc
        refine ⟨hvalid c hc, not_quoting_char_lower_fixed ?_⟩
        have hq2 := hq
        unfold needsQuoting at hq2
        rw [List.any_eq_false] at hq2
        have hcc := hq2 c hc
        cases hx : (c = 59 || c = 61 || c = 34 || c = 92 || c = 32 || (65 ≤ c && c ≤ 90))
        · rfl
        · exact absurd hx hcc
      have he : emitTag (k, v) = k ++ 61 :: v := by
        by_cases h2 : v = strQ
        · subst h2
          unfold emitTag; dsimp only
          rw [if_neg h1, if_pos rfl]
          rfl
        · by_cases h3 : v = strBang
          · subst h3
            unfold emitTag; dsimp only
            rw [if_neg h1, if_neg (by decide), if_pos rfl]
            rfl
          · unfold emitTag; dsimp only
            rw [if_neg h1, if_neg h2, if_neg h3, if_neg h4, List.append_assoc]
            rfl
      constructor
      · conv_lhs => rw [he, ← List.append_nil (k ++ 61 :: v)]
        rw [reach_unq acc [] hk hv.1 hall]
        exact end_unq_nil hk hv.1 hnm
      · rw [he, reach_unq acc _ hk hv.1 hall]
        exact end_unq_semi r hk hv.1 hnm

/-- A whole serialized tag list parses back to exactly those tags. -/
theorem parse_emitted : ∀ (L acc : List (Str × Str)),
    (∀ kv ∈ L, goodKey kv.1 ∧ goodVal kv.2) →
    (L.map Prod.fst).Nodup →
    (∀ k ∈ L.map Prod.fst, k ∉ acc.map Prod.fst) →
    parseLoop .expectingKey acc [] [] (joinSemi (L.map emitTag)) = .ok (acc ++ L) := by
  intro L
  induction L with
  | nil =>
    intro acc _ _ _
    simp [joinSemi, parseLoop]
  | cons kv L ih =>
    intro acc hwf hnd hdisj
    obtain ⟨k, v⟩ := kv
    obtain ⟨hk, hv⟩ := hwf (k, v) (List.mem_cons_self _ _)
    have hnm : k ∉ acc.map Prod.fst := hdisj k (by simp)
    simp only [List.map_cons, List.map_nil, List.nodup_cons] at hnd
    cases L with
    | nil =>
      simp only [List.map_cons, List.map_nil]
      rw [show joinSemi [emitTag (k, v)] = emitTag (k, v) from rfl]
      exact (tag_step acc [] hk hv hnm).1
    | cons kv2 L2 =>
      have hdisj2 : ∀ k2 ∈ (kv2 :: L2).map Prod.fst,
          k2 ∉ (acc ++ [(k, v)]).map Prod.fst := by
        intro k2 hk2
        simp only [List.map_append, List.mem_append, List.map_cons, List.map_nil,
          List.mem_singleton, not_or]
        constructor
        · exact hdisj k2 (List.mem_cons_of_mem k hk2)
        · intro hx
          subst hx
          exact hnd.1 hk2
      have hrec := ih (acc ++ [(k, v)])
        (fun kv' hm => hwf kv' (List.mem_cons_of_mem _ hm)) hnd.2 hdisj2
      simp only [List.map_cons] at hrec ⊢
      rw [show joinSemi (emitTag (k, v) :: emitTag kv2 :: List.map emitTag L2) =
        emitTag (k, v) ++ 59 :: joinSemi (emitTag kv2 :: List.map emitTag L2) from rfl]
      rw [(tag_step acc _ hk hv hnm).2, hrec, List.append_assoc]
      rfl

theorem mem_of_getLast? {l : Str} {c : Nat} (h : l.getLast? = some c) : c ∈ l := by
  rw [← List.head?_reverse] at h
  have hm : c ∈ l.reverse := by
    cases hr : l.reverse with
    | nil => rw [hr] at h; exact Option.noConfusion h
    | cons x xs =>
      rw [hr] at h
      simp only [List.head?_cons, Option.some.injEq] at h
      subst h
      exact List.mem_cons_self _ _
  exact List.mem_reverse.mp hm

theorem emitTag_ne_nil {k v : Str} (hk : goodKey k) : emitTag (k, v) ≠ [] := by
  unfold emitTag; dsimp only
  split_ifs <;> simp [hk.1]

theorem emitTag_head {k v : Str} (hk : goodKey k) :
    ∃ c, (emitTag (k, v)).head? = some c ∧ isValidKeyChar c = true := by
  cases k with
  | nil => exact absurd rfl hk.1
  | cons kc kt =>
    have hkc := (hk.2.1 kc (by simp)).1
    unfold emitTag; dsimp only
    split_ifs <;> exact ⟨kc, rfl, hkc⟩

theorem emitTag_last {k v : Str} (hk : goodKey k) (hv : goodVal v) :
    ∀ c, (emitTag (k, v)).getLast? = some c → isWsp c = false := by
  unfold emitTag; dsimp only
  split_ifs with h1 h2 h3 h4
  · intro c hc
    exact (valid_key_not_special (hk.2.1 c (mem_of_getLast? hc)).1).2.2.2
  · intro c hc
    rw [List.getLast?_append_of_ne_nil _ (by simp)] at hc
    rw [show (([61, 63] : Str).getLast?) = some 63 from rfl] at hc
    have hcc : (63 : Nat) = c := by injection hc
    subst hcc
    rfl
  · intro c hc
    rw [List.getLast?_append_of_ne_nil _ (by simp)] at hc
    rw [show (([61, 33] : Str).getLast?) = some 33 from rfl] at hc
    have hcc : (33 : Nat) = c := by injection hc
    subst hcc
    rfl
  · intro c hc
    rw [List.getLast?_append_of_ne_nil _ (by simp [quoteValue])] at hc
    unfold quoteValue at hc
    rw [show (34 :: (escapeStr v ++ [34]) : Str) = [34] ++ (escapeStr v ++ [34]) from rfl,
      List.getLast?_append_of_ne_nil _ (by simp),
      List.getLast?_append_of_ne_nil _ (by simp)] at hc
    rw [show (([34] : Str).getLast?) = some 34 from rfl] at hc
    have hcc : (34 : Nat) = c := by injection hc
    subst hcc
    rfl
  · intro c hc
    rw [List.getLast?_append_of_ne_nil _ hv.1] at hc
    have hvc : c ∈ v := mem_of_getLast? hc
    have hvalid : ∀ c' ∈ v, isValidUnquotedValueChar c' = true := by
      rcases hv.2 with hx | hx
      · exact absurd hx h4
      · exact hx
    exact (valid_unquoted_not_special (hvalid c hvc)).2.2.2.2

theorem joinSemi_ne_nil : ∀ {es : List Str}, es ≠ [] → (∀ e ∈ es, e ≠ []) →
    joinSemi es ≠ [] := by
  intro es
  cases es with
  | nil => intro h _; exact absurd rfl h
  | cons e es2 =>
    intro _ hall
    cases es2 with
    | nil => exact hall e (by simp)
    | cons e2 es3 => simp [joinSemi]

theorem joinSemi_head : ∀ {es : List Str} {e : Str}, es.head? = some e → e ≠ [] →
    (joinSemi es).head? = e.head? := by
  intro es e hh hne
  cases es with
  | nil => exact Option.noConfusion hh
  | cons e1 es2 =>
    have he1 : e1 = e := by injection hh
    subst he1
    cases es2 with
    | nil => rfl
    | cons e2 es3 =>
      cases e1 with
      | nil => exact absurd rfl hne
      | cons c cs => rfl

theorem joinSemi_last : ∀ (es : List Str),
    (∀ e ∈ es, e ≠ [] ∧ ∀ c, e.getLast? = some c → isWsp c = false) →
    ∀ c, (joinSemi es).getLast? = some c → isWsp c = false := by
  intro es
  induction es with
  | nil => intro _ c hc; exact Option.noConfusion hc
  | cons e es2 ih =>
    intro hall c hc
    cases es2 with
    | nil => exact (hall e (by simp)).2 c hc
    | cons e2 es3 =>
      rw [show joinSemi (e :: e2 :: es3) = e ++ 59 :: joinSemi (e2 :: es3) from rfl] at hc
      rw [List.getLast?_append_of_ne_nil _ (by simp)] at hc
      have hjne : joinSemi (e2 :: es3) ≠ [] :=
        joinSemi_ne_nil (by simp)
          (fun e' he' => (hall e' (List.mem_cons_of_mem _ he')).1)
      rw [show (59 :: joinSemi (e2 :: es3) : Str) = [59] ++ joinSemi (e2 :: es3) from rfl,
        List.getLast?_append_of_ne_nil _ hjne] at hc
      exact ih (fun e' he' => hall e' (List.mem_cons_of_mem _ he')) c hc

theorem splitAtColon_append : ∀ {p : Str} (b : Str), 58 ∉ p →
    splitAtColon (p ++ 58 :: b) = some (p, b) := by
  intro p
  induction p with
  | nil => intro b _; rfl
  | cons c cs ih =>
    intro b hn
    simp only [List.mem_cons, not_or] at hn
    have hc : ¬c = 58 := fun hx => hn.1 hx.symm
    rw [List.cons_append]
    simp only [splitAtColon]
    rw [if_neg hc, ih b hn.2]
    rfl

/-- Serializing a well-formed URN and parsing the result succeeds and
returns the key-sorted version of the same URN. -/
theorem serialize_parse {u : TaggedUrn} (hwf : WFurn u) :
    from_string (to_string u) = .ok ⟨u.pfx, u.tags.insertionSort tagLe⟩ := by
  obtain ⟨hpfx, htinv, hvals⟩ := hwf
  have hperm : (u.tags.insertionSort tagLe).Perm u.tags :=
    List.perm_insertionSort tagLe u.tags
  have hmemS : ∀ kv ∈ u.tags.insertionSort tagLe, goodKey kv.1 ∧ goodVal kv.2 :=
    fun kv hm => ⟨(htinv.2 kv (hperm.mem_iff.mp hm)).1, hvals kv (hperm.mem_iff.mp hm)⟩
  have hndS : ((u.tags.insertionSort tagLe).map Prod.fst).Nodup :=
    ((hperm.map Prod.fst).nodup_iff).mpr htinv.1
  have hts : to_string u =
      u.pfx ++ 58 :: joinSemi ((u.tags.insertionSort tagLe).map emitTag) := rfl
  have hphead : ∀ c, u.pfx.head? = some c → isWsp c = false := hpfx.2.2.2
  have hshead : ∀ c, (to_string u).head? = some c → isWsp c = false := by
    intro c hc
    rw [hts] at hc
    cases hp : u.pfx with
    | nil => exact absurd hp hpfx.1
    | cons p0 pt =>
      rw [hp] at hc
      have : p0 = c := by injection hc
      subst this
      exact hphead p0 (by rw [hp]; rfl)
  have hemits : ∀ e ∈ (u.tags.insertionSort tagLe).map emitTag,
      e ≠ [] ∧ ∀ c, e.getLast? = some c → isWsp c = false := by
    intro e he
    obtain ⟨kv, hkv, rfl⟩ := List.mem_map.mp he
    obtain ⟨k, v⟩ := kv
    exact ⟨emitTag_ne_nil (hmemS (k, v) hkv).1,
      emitTag_last (hmemS (k, v) hkv).1 (hmemS (k, v) hkv).2⟩
  have hslast : ∀ c, (to_string u).getLast? = some c → isWsp c = false := by
    intro c hc
    rw [hts, List.getLast?_append_of_ne_nil _ (by simp)] at hc
    cases hb : joinSemi ((u.tags.insertionSort tagLe).map emitTag) with
    | nil =>
      rw [hb] at hc
      rw [show (([58] : Str).getLast?) = some 58 from rfl] at hc
      have : (58 : Nat) = c := by injection hc
      subst this
      rfl
    | cons b0 bt =>
      rw [hb] at hc
      rw [show (58 :: b0 :: bt : Str) = [58] ++ (b0 :: bt) from rfl,
        List.getLast?_append_of_ne_nil _ (by simp)] at hc
      rw [← hb] at hc
      exact joinSemi_last _ hemits c hc
  have hstrip : pyStrip (to_string u) = to_string u := pyStrip_eq_self hshead hslast
  unfold from_string
  rw [if_neg (fun hne => hne hstrip.symm),
    if_neg (by rw [hts]; simp),
    show splitAtColon (to_string u) =
      some (u.pfx, joinSemi ((u.tags.insertionSort tagLe).map emitTag)) from by
        rw [hts]; exact splitAtColon_append _ hpfx.2.1]
  dsimp only
  rw [if_neg hpfx.1]
  by_cases hSnil : u.tags.insertionSort tagLe = []
  · rw [hSnil]
    have hafter : joinSemi (List.map emitTag ([] : List (Str × Str))) = [] := rfl
    rw [if_pos (Or.inl hafter)]
    unfold mkUrn
    rw [pyLowerStr_idem, hpfx.2.2.1]
    rfl
  · obtain ⟨s1, S2, hS12⟩ : ∃ s1 S2, u.tags.insertionSort tagLe = s1 :: S2 := by
      cases hx : u.tags.insertionSort tagLe with
      | nil => exact absurd hx hSnil
      | cons a b => exact ⟨a, b, rfl⟩
    obtain ⟨c0, hc0, hc0valid⟩ :=
      @emitTag_head s1.1 s1.2 (hmemS s1 (by rw [hS12]; simp)).1
    have hbh : (joinSemi ((u.tags.insertionSort tagLe).map emitTag)).head? = some c0 := by
      rw [hS12, List.map_cons,
        joinSemi_head
          (show (emitTag s1 :: List.map emitTag S2).head? = some (emitTag s1) from rfl)
          (emitTag_ne_nil (hmemS s1 (by rw [hS12]; simp)).1)]
      exact hc0
    -- the emitted head is a key character, so the body is neither empty nor a
    -- lone semicolon
    have hta : ¬(joinSemi ((u.tags.insertionSort tagLe).map emitTag) = [] ∨
        joinSemi ((u.tags.insertionSort tagLe).map emitTag) = [59]) := by
      intro hx
      rcases hx with hx | hx
      · rw [hx] at hbh
        exact Option.noConfusion hbh
      · rw [hx] at hbh
        have : (59 : Nat) = c0 := by injection hbh
        subst this
        exact absurd hc0valid (by decide)
    rw [if_neg hta]
    have hpl := parse_emitted (u.tags.insertionSort tagLe) [] hmemS hndS (by simp)
    rw [List.nil_append] at hpl
    rw [hpl]
    dsimp only
    rw [mkUrn_normal (by rw [pyLowerStr_idem]) ?_ ?_]
    · rw [hpfx.2.2.1]
    · exact hndS
    · intro kv hm
      exact lowerStr_fixed (fun c hc => ((hmemS kv hm).1.2.1 c hc).2)

/-! Matching engine: the specification-side 5x5 table and its relation to
the code. -/

/-- Matching table transcribed from the specification text: a question mark
on either side or an absent pattern always matches; absent matches absent;
an absent instance fails against star and against an exact value; a bang
instance matches absent, question mark or bang and fails otherwise; a star
instance fails only against bang; an exact instance fails against bang,
matches star, and otherwise requires case-sensitive equality. -/
def specMatches (inst patt : Option Str) : Bool :=
  if inst = some strQ ∨ patt = some strQ ∨ patt = none then true
  else
    match inst, patt with
    | _, none => true
    | none, some pv => if pv = strBang then true else false
    | some iv, some pv =>
      if iv = strBang then (if pv = strBang then true else false)
      else if iv = strStar then (if pv = strBang then false else true)
      else if pv = strBang then false
      else if pv = strStar then true
      else iv == pv

theorem valuesMatch_eq_specMatches (o p : Option Str) :
    valuesMatch o p = specMatches o p := by
  unfold valuesMatch specMatches
  rcases p with _ | pv
  · rcases o with _ | iv <;> simp
  · rcases o with _ | iv
    · by_cases h1 : pv = strQ
      · simp [h1]
      · by_cases h2 : pv = strBang
        · subst h2
          simp [h1]
        · by_cases h3 : pv = strStar <;> simp [h1, h2, h3]
    · by_cases hiq : iv = strQ
      · by_cases hpq : pv = strQ <;> simp [hiq, hpq]
      · by_cases hpq : pv = strQ
        · simp [hiq, hpq]
        · by_cases hpb : pv = strBang
          · subst hpb
            by_cases hib : iv = strBang <;> simp [hiq, hib]
          · by_cases hib : iv = strBang
            · subst hib
              by_cases hps : pv = strStar <;> (first | (simp [hpq, hpb, hps]; decide) | simp [hpq, hpb, hps])
            · by_cases hps : pv = strStar
              · subst hps
                by_cases his : iv = strStar <;> simp [hiq, hib, hpq, hpb, his]
              · by_cases his : iv = strStar
                · subst his
                  simp [hiq, hib, hpq, hpb, hps]
                · by_cases hvp : iv = pv
                  · subst hvp
                    simp [hiq, hib, his]
                  · have hvp2 : ¬pv = iv := fun h => hvp h.symm
                    simp [hiq, hib, his, hpq, hpb, hps, hvp, hvp2]

/-- Pure conformance value, defined when the prefixes agree. -/
def conformsB (i p : TaggedUrn) : Bool :=
  (unionKeys i.tags p.tags).all
    (fun k => valuesMatch (dictGet i.tags k) (dictGet p.tags k))

theorem conforms_to_eq {i p : TaggedUrn} (h : i.pfx = p.pfx) :
    conforms_to i p = .ok (conformsB i p) := by
  unfold conforms_to checkMatch conformsB
  rw [if_neg (not_not.mpr h)]

theorem mem_unionKeys {d1 d2 : List (Str × Str)} {k : Str} :
    k ∈ unionKeys d1 d2 ↔ k ∈ d1.map Prod.fst ∨ k ∈ d2.map Prod.fst := by
  unfold unionKeys
  rw [List.mem_append, List.mem_filter]
  constructor
  · intro h
    rcases h with h | h
    · exact Or.inl h
    · exact Or.inr h.1
  · intro h
    rcases h with h | h
    · exact Or.inl h
    · by_cases h1 : k ∈ d1.map Prod.fst
      · exact Or.inl h1
      · refine Or.inr ⟨h, ?_⟩
        simpa using h1

/-- The conjunction over the union of keys can be read pointwise over all
keys: keys outside the union are absent on both sides and match trivially. -/
theorem conformsB_eq_true_iff {i p : TaggedUrn} :
    conformsB i p = true ↔
      ∀ k, valuesMatch (dictGet i.tags k) (dictGet p.tags k) = true := by
  unfold conformsB
  rw [List.all_eq_true]
  constructor
  · intro h k
    by_cases hm : k ∈ unionKeys i.tags p.tags
    · exact h k hm
    · rw [mem_unionKeys, not_or] at hm
      rw [dictGet_eq_none.mpr hm.1, dictGet_eq_none.mpr hm.2]
      rfl
  · intro h k _
    exact h k

/-! Compatibility: symmetry and the existence of common instances. -/

theorem valuesCompatible_symm (v1 v2 : Option Str) :
    valuesCompatible v1 v2 = valuesCompatible v2 v1 := by
  unfold valuesCompatible
  rcases v1 with _ | x
  · rcases v2 with _ | y <;> simp
  · rcases v2 with _ | y
    · simp
    · by_cases hxq : x = strQ <;> by_cases hyq : y = strQ <;>
        by_cases hxb : x = strBang <;> by_cases hyb : y = strBang <;>
        by_cases hxs : x = strStar <;> by_cases hys : y = strStar <;>
        simp_all [eq_comm]

/-- Pure compatibility value, defined when the prefixes agree. -/
def compatB (a b : TaggedUrn) : Bool :=
  (unionKeys a.tags b.tags).all
    (fun k => valuesCompatible (dictGet a.tags k) (dictGet b.tags k))

theorem is_compatible_with_eq {a b : TaggedUrn} (h : a.pfx = b.pfx) :
    is_compatible_with a b = .ok (compatB a b) := by
  unfold is_compatible_with compatB
  rw [if_neg (not_not.mpr h)]

theorem compatB_eq_true_iff {a b : TaggedUrn} :
    compatB a b = true ↔
      ∀ k, valuesCompatible (dictGet a.tags k) (dictGet b.tags k) = true := by
  unfold compatB
  rw [List.all_eq_true]
  constructor
  · intro h k
    by_cases hm : k ∈ unionKeys a.tags b.tags
    · exact h k hm
    · rw [mem_unionKeys, not_or] at hm
      rw [dictGet_eq_none.mpr hm.1, dictGet_eq_none.mpr hm.2]
      rfl
  · intro h k _
    exact h k

theorem compatB_symm (a b : TaggedUrn) : compatB a b = compatB b a := by
  have h : compatB a b = true ↔ compatB b a = true := by
    rw [compatB_eq_true_iff, compatB_eq_true_iff]
    constructor <;> intro h k
    · rw [valuesCompatible_symm]
      exact h k
    · rw [valuesCompatible_symm]
      exact h k
  cases hab : compatB a b <;> cases hba : compatB b a <;> simp_all

/-- Concrete exact value that satisfies a single pattern constraint, when
any exact value can. -/
def exactPart : Option Str → Option Str
  | none => none
  | some v => if v = strQ ∨ v = strBang ∨ v = strStar then none else some v

/-- A concrete instance value satisfying two compatible constraints. -/
def pickVal (o1 o2 : Option Str) : Option Str :=
  match exactPart o1 with
  | some v => some v
  | none =>
    match exactPart o2 with
    | some v => some v
    | none => if o1 = some strStar ∨ o2 = some strStar then some [120] else none

theorem pickVal_spec {o1 o2 : Option Str} (h : valuesCompatible o1 o2 = true) :
    valuesMatch (pickVal o1 o2) o1 = true ∧ valuesMatch (pickVal o1 o2) o2 = true ∧
    ∀ v, pickVal o1 o2 = some v → v ≠ strQ ∧ v ≠ strBang ∧ v ≠ strStar := by
  rcases o1 with _ | x
  · rcases o2 with _ | y
    · exact ⟨rfl, rfl, by intro v hv; exact Option.noConfusion hv⟩
    · by_cases hyq : y = strQ
      · subst hyq
        exact ⟨rfl, rfl, by intro v hv; exact Option.noConfusion hv⟩
      · by_cases hyb : y = strBang
        · subst hyb
          exact ⟨rfl, rfl, by intro v hv; exact Option.noConfusion hv⟩
        · by_cases hys : y = strStar
          · subst hys
            refine ⟨rfl, rfl, ?_⟩
            intro v hv
            have : ([120] : Str) = v := by injection hv
            subst this
            exact ⟨by decide, by decide, by decide⟩
          · have hp : pickVal none (some y) = some y := by
              simp [pickVal, exactPart, hyq, hyb, hys]
            rw [hp]
            refine ⟨rfl, ?_, ?_⟩
            · simp [valuesMatch, hyq, hyb, hys]
            · intro v hv
              have : y = v := by injection hv
              subst this
              exact ⟨hyq, hyb, hys⟩
  · rcases o2 with _ | y
    · by_cases hxq : x = strQ
      · subst hxq
        exact ⟨rfl, rfl, by intro v hv; exact Option.noConfusion hv⟩
      · by_cases hxb : x = strBang
        · subst hxb
          exact ⟨rfl, rfl, by intro v hv; exact Option.noConfusion hv⟩
        · by_cases hxs : x = strStar
          · subst hxs
            refine ⟨rfl, rfl, ?_⟩
            intro v hv
            have : ([120] : Str) = v := by injection hv
            subst this
            exact ⟨by decide, by decide, by decide⟩
          · have hp : pickVal (some x) none = some x := by
              simp [pickVal, exactPart, hxq, hxb, hxs]
            rw [hp]
            refine ⟨?_, rfl, ?_⟩
            · simp [valuesMatch, hxq, hxb, hxs]
            · intro v hv
              have : x = v := by injection hv
              subst this
              exact ⟨hxq, hxb, hxs⟩
    · -- both present: use compatibility
      by_cases hxq : x = strQ
      · subst hxq
        by_cases hyq : y = strQ
        · subst hyq
          exact ⟨rfl, rfl, by intro v hv; exact Option.noConfusion hv⟩
        · by_cases hyb : y = strBang
          · subst hyb
            exact ⟨rfl, rfl, by intro v hv; exact Option.noConfusion hv⟩
          · by_cases hys : y = strStar
            · subst hys
              refine ⟨rfl, rfl, ?_⟩
              intro v hv
              have : ([120] : Str) = v := by injection hv
              subst this
              exact ⟨by decide, by decide, by decide⟩
            · have hp : pickVal (some strQ) (some y) = some y := by
                simp [pickVal, exactPart, hyq, hyb, hys]
              rw [hp]
              refine ⟨rfl, ?_, ?_⟩
              · simp [valuesMatch, hyq, hyb, hys]
              · intro v hv
                have : y = v := by injection hv
                subst this
                exact ⟨hyq, hyb, hys⟩
      · by_cases hyq : y = strQ
        · subst hyq
          by_cases hxb : x = strBang
          · subst hxb
            exact ⟨rfl, rfl, by intro v hv; exact Option.noConfusion hv⟩
          · by_cases hxs : x = strStar
            · subst hxs
              refine ⟨rfl, rfl, ?_⟩
              intro v hv
              have : ([120] : Str) = v := by injection hv
              subst this
              exact ⟨by decide, by decide, by decide⟩
            · have hp : pickVal (some x) (some strQ) = some x := by
                simp [pickVal, exactPart, hxq, hxb, hxs]
              rw [hp]
              refine ⟨?_, rfl, ?_⟩
              · simp [valuesMatch, hxq, hxb, hxs]
              · intro v hv
                have : x = v := by injection hv
                subst this
                exact ⟨hxq, hxb, hxs⟩
        · -- neither is a question mark
          by_cases hxb : x = strBang
          · subst hxb
            by_cases hyb : y = strBang
            · subst hyb
              exact ⟨rfl, rfl, by intro v hv; exact Option.noConfusion hv⟩
            · exfalso
              have hfalse : valuesCompatible (some strBang) (some y) = false := by
                simp [valuesCompatible, hyq, hyb, (by decide : ¬strBang = strQ)]
              rw [hfalse] at h
              exact Bool.noConfusion h
          · by_cases hyb : y = strBang
            · exfalso
              subst hyb
              have hfalse : valuesCompatible (some x) (some strBang) = false := by
                simp [valuesCompatible, hxq, hxb, (by decide : ¬strBang = strQ)]
              rw [hfalse] at h
              exact Bool.noConfusion h
            · by_cases hxs : x = strStar
              · subst hxs
                by_cases hys : y = strStar
                · subst hys
                  refine ⟨rfl, rfl, ?_⟩
                  intro v hv
                  have : ([120] : Str) = v := by injection hv
                  subst this
                  exact ⟨by decide, by decide, by decide⟩
                · have hp : pickVal (some strStar) (some y) = some y := by
                    simp [pickVal, exactPart, hyq, hyb, hys]
                  rw [hp]
                  refine ⟨?_, ?_, ?_⟩
                  · simp [valuesMatch, hyq, hyb, hys, (by decide : ¬strStar = strQ),
                      (by decide : ¬strStar = strBang)]
                  · simp [valuesMatch, hyq, hyb, hys]
                  · intro v hv
                    have : y = v := by injection hv
                    subst this
                    exact ⟨hyq, hyb, hys⟩
              · by_cases hys : y = strStar
                · subst hys
                  have hp : pickVal (some x) (some strStar) = some x := by
                    simp [pickVal, exactPart, hxq, hxb, hxs]
                  rw [hp]
                  refine ⟨?_, ?_, ?_⟩
                  · simp [valuesMatch, hxq, hxb, hxs]
                  · simp [valuesMatch, hxq, hxb, hxs, (by decide : ¬strStar = strQ),
                      (by decide : ¬strStar = strBang)]
                  · intro v hv
                    have : x = v := by injection hv
                    subst this
                    exact ⟨hxq, hxb, hxs⟩
                · -- both exact: compatibility forces equality
                  have hxy : x = y := by
                    have hcompat := h
                    unfold valuesCompatible at hcompat
                    rw [if_neg (by simp), if_neg (by simp [hxq, hyq]),
                      if_neg (by simp [hxb]), if_neg (by simp [hxb, hyb]),
                      if_neg (by simp [hxs]), if_neg (by simp [hxs, hys])] at hcompat
                    have := of_decide_eq_true hcompat
                    injection this
                  subst hxy
                  have hp : pickVal (some x) (some x) = some x := by
                    simp [pickVal, exactPart, hxq, hxb, hxs]
                  rw [hp]
                  refine ⟨?_, ?_, ?_⟩
                  · simp [valuesMatch, hxq, hxb, hxs]
                  · simp [valuesMatch, hxq, hxb, hxs]
                  · intro v hv
                    have : x = v := by injection hv
                    subst this
                    exact ⟨hxq, hxb, hxs⟩

/-- If a concrete instance value (absent or a literal exact value) matches
both pattern constraints, the two constraints are compatible. -/
theorem compat_of_concrete_match {o o1 o2 : Option Str}
    (hconc : o = none ∨ ∃ v, o = some v ∧ v ≠ strQ ∧ v ≠ strBang ∧ v ≠ strStar)
    (h1 : valuesMatch o o1 = true) (h2 : valuesMatch o o2 = true) :
    valuesCompatible o1 o2 = true := by
  have hQB : ¬strQ = strBang := by decide
  have hQS : ¬strQ = strStar := by decide
  have hBQ : ¬strBang = strQ := by decide
  have hBS : ¬strBang = strStar := by decide
  have hSQ : ¬strStar = strQ := by decide
  have hSB : ¬strStar = strBang := by decide
  rcases o1 with _ | x
  · simp [valuesCompatible, hQB, hQS, hBQ, hBS, hSQ, hSB]
  · rcases o2 with _ | y
    · simp [valuesCompatible, hQB, hQS, hBQ, hBS, hSQ, hSB]
    · by_cases hxq : x = strQ
      · simp [valuesCompatible, hQB, hQS, hBQ, hBS, hSQ, hSB, hxq]
      · by_cases hyq : y = strQ
        · simp [valuesCompatible, hQB, hQS, hBQ, hBS, hSQ, hSB, hxq, hyq]
        · rcases hconc with hco | ⟨v, hco, hvq, hvb, hvs⟩ <;> subst hco
          · -- absent instance: both constraints must accept absence
            by_cases hxb : x = strBang
            · by_cases hyb : y = strBang
              · simp [valuesCompatible, hQB, hQS, hBQ, hBS, hSQ, hSB, hxb, hyb]
              · by_cases hys : y = strStar
                · subst hys
                  simp [valuesMatch, hQB, hQS, hBQ, hBS, hSQ, hSB] at h2
                · simp [valuesMatch, hQB, hQS, hBQ, hBS, hSQ, hSB, hyq, hyb, hys] at h2
            · by_cases hxs : x = strStar
              · subst hxs
                simp [valuesMatch, hQB, hQS, hBQ, hBS, hSQ, hSB] at h1
              · simp [valuesMatch, hQB, hQS, hBQ, hBS, hSQ, hSB, hxq, hxb, hxs] at h1
          · -- exact instance value v
            by_cases hxb : x = strBang
            · subst hxb
              simp [valuesMatch, hQB, hQS, hBQ, hBS, hSQ, hSB, hvq, hvb] at h1
            · by_cases hyb : y = strBang
              · subst hyb
                simp [valuesMatch, hQB, hQS, hBQ, hBS, hSQ, hSB, hvq, hvb] at h2
              · by_cases hxs : x = strStar
                · by_cases hys : y = strStar
                  · simp [valuesCompatible, hQB, hQS, hBQ, hBS, hSQ, hSB, hxs, hys]
                  · simp [valuesCompatible, hQB, hQS, hBQ, hBS, hSQ, hSB, hxs, hxq, hyq, hxb, hyb]
                · by_cases hys : y = strStar
                  · simp [valuesCompatible, hQB, hQS, hBQ, hBS, hSQ, hSB, hys, hxq, hyq, hxb, hyb]
                  · simp [valuesMatch, hQB, hQS, hBQ, hBS, hSQ, hSB, hxq, hxb, hxs, hvq, hvb, hvs] at h1
                    simp [valuesMatch, hQB, hQS, hBQ, hBS, hSQ, hSB, hyq, hyb, hys, hvq, hvb, hvs] at h2
                    subst h1
                    subst h2
                    simp [valuesCompatible, hQB, hQS, hBQ, hBS, hSQ, hSB, hvq, hvb, hvs]

/-- Tags of the common-instance witness used for compatibility. -/
def witnessTags (a b : TaggedUrn) : List (Str × Str) :=
  (unionKeys a.tags b.tags).foldr (fun k acc =>
    match pickVal (dictGet a.tags k) (dictGet b.tags k) with
    | some v => (k, v) :: acc
    | none => acc) []

theorem dictGet_foldr_pick (f : Str → Option Str) : ∀ (ks : List Str), ks.Nodup → ∀ k0,
    dictGet (ks.foldr (fun k acc =>
      match f k with
      | some v => (k, v) :: acc
      | none => acc) []) k0 = if k0 ∈ ks then f k0 else none := by
  intro ks
  induction ks with
  | nil => intro _ k0; simp [dictGet]
  | cons k ks ih =>
    intro hnd k0
    rw [List.nodup_cons] at hnd
    by_cases hk0 : k0 = k
    · subst hk0
      cases hf : f k0 with
      | none =>
        simp only [List.foldr_cons, hf]
        rw [ih hnd.2 k0, if_pos (List.mem_cons_self _ _), hf, if_neg hnd.1]
      | some v =>
        simp only [List.foldr_cons, hf]
        rw [if_pos (List.mem_cons_self _ _)]
        simp [dictGet]
    · have hk0s : ¬k = k0 := fun h => hk0 h.symm
      cases hf : f k with
      | none =>
        simp only [List.foldr_cons, hf]
        rw [ih hnd.2 k0]
        by_cases hm : k0 ∈ ks
        · rw [if_pos hm, if_pos (List.mem_cons_of_mem _ hm)]
        · rw [if_neg hm, if_neg (by simp [hk0, hm])]
      | some v =>
        simp only [List.foldr_cons, hf]
        rw [show (dictGet ((k, v) :: (ks.foldr (fun k acc =>
            match f k with
            | some v => (k, v) :: acc
            | none => acc) [])) k0) =
          dictGet (ks.foldr (fun k acc =>
            match f k with
            | some v => (k, v) :: acc
            | none => acc) []) k0 from by simp [dictGet, hk0s]]
        rw [ih hnd.2 k0]
        by_cases hm : k0 ∈ ks
        · rw [if_pos hm, if_pos (List.mem_cons_of_mem _ hm)]
        · rw [if_neg hm, if_neg (by simp [hk0, hm])]

theorem mem_foldr_pick (f : Str → Option Str) : ∀ (ks : List Str) (kv : Str × Str),
    kv ∈ ks.foldr (fun k acc =>
      match f k with
      | some v => (k, v) :: acc
      | none => acc) [] → f kv.1 = some kv.2 := by
  intro ks
  induction ks with
  | nil => intro kv h; exact absurd h (List.not_mem_nil kv)
  | cons k ks ih =>
    intro kv h
    simp only [List.foldr_cons] at h
    cases hf : f k with
    | none =>
      rw [hf] at h
      exact ih kv h
    | some v =>
      rw [hf] at h
      rcases List.mem_cons.mp h with he | hm
      · subst he
        exact hf
      · exact ih kv hm

theorem unionKeys_nodup {d1 d2 : List (Str × Str)} (h1 : (d1.map Prod.fst).Nodup)
    (h2 : (d2.map Prod.fst).Nodup) : (unionKeys d1 d2).Nodup := by
  unfold unionKeys
  rw [List.nodup_append]
  refine ⟨h1, h2.filter _, ?_⟩
  intro a ha hb
  rw [List.mem_filter] at hb
  revert hb
  simp [ha]

/-! Best-match selection: loop invariant for find_best_match. -/

/-- What the selection loop guarantees about its current best relative to
the candidates already examined: none means nothing conformed; a best is a
conforming candidate, of maximal specificity among the conforming ones, and
strictly more specific than every conforming candidate seen before it. -/
def BestInv (req : TaggedUrn) (processed : List TaggedUrn)
    (r : Option TaggedUrn) : Prop :=
  (r = none → ∀ u ∈ processed, conformsB u req = false) ∧
  (∀ b, r = some b → conformsB b req = true ∧
    (∀ v ∈ processed, conformsB v req = true → specificity v ≤ specificity b) ∧
    ∃ l1 l2, processed = l1 ++ b :: l2 ∧
      ∀ v ∈ l1, conformsB v req = true → specificity v < specificity b)

theorem fbl_step_skip {req u : TaggedUrn} {rest : List TaggedUrn}
    {best : Option TaggedUrn} {bspec : Nat}
    (hconf : conforms_to u req = .ok false) :
    findBestLoop req (u :: rest) best bspec = findBestLoop req rest best bspec := by
  have h1 : findBestLoop req (u :: rest) best bspec =
      (match conforms_to u req with
       | .error e => .error e
       | .ok true =>
         if best.isNone || specificity u > bspec then
           findBestLoop req rest (some u) (specificity u)
         else findBestLoop req rest best bspec
       | .ok false => findBestLoop req rest best bspec) := rfl
  rw [h1, hconf]

theorem fbl_step_take {req u : TaggedUrn} {rest : List TaggedUrn}
    {best : Option TaggedUrn} {bspec : Nat}
    (hconf : conforms_to u req = .ok true)
    (hup : (best.isNone || specificity u > bspec) = true) :
    findBestLoop req (u :: rest) best bspec =
      findBestLoop req rest (some u) (specificity u) := by
  have h1 : findBestLoop req (u :: rest) best bspec =
      (match conforms_to u req with
       | .error e => .error e
       | .ok true =>
         if best.isNone || specificity u > bspec then
           findBestLoop req rest (some u) (specificity u)
         else findBestLoop req rest best bspec
       | .ok false => findBestLoop req rest best bspec) := rfl
  rw [h1, hconf]
  dsimp only
  rw [if_pos hup]

theorem fbl_step_keep {req u : TaggedUrn} {rest : List TaggedUrn}
    {best : Option TaggedUrn} {bspec : Nat}
    (hconf : conforms_to u req = .ok true)
    (hup : (best.isNone || specificity u > bspec) = false) :
    findBestLoop req (u :: rest) best bspec = findBestLoop req rest best bspec := by
  have h1 : findBestLoop req (u :: rest) best bspec =
      (match conforms_to u req with
       | .error e => .error e
       | .ok true =>
         if best.isNone || specificity u > bspec then
           findBestLoop req rest (some u) (specificity u)
         else findBestLoop req rest best bspec
       | .ok false => findBestLoop req rest best bspec) := rfl
  rw [h1, hconf]
  dsimp only
  rw [if_neg (by simp [hup])]

theorem findBestLoop_spec (req : TaggedUrn) : ∀ (rest : List TaggedUrn)
    (best : Option TaggedUrn) (bspec : Nat) (processed : List TaggedUrn),
    (∀ u ∈ rest, u.pfx = req.pfx) →
    BestInv req processed best →
    (∀ b, best = some b → bspec = specificity b) →
    ∃ r, findBestLoop req rest best bspec = .ok r ∧ BestInv req (processed ++ rest) r := by
  intro rest
  induction rest with
  | nil =>
    intro best bspec processed _ hinv _
    exact ⟨best, rfl, by simpa using hinv⟩
  | cons u rest ih =>
    intro best bspec processed hpfx hinv hbs
    have hpe : u.pfx = req.pfx := hpfx u (by simp)
    have hconf : conforms_to u req = .ok (conformsB u req) := conforms_to_eq hpe
    have happ : processed ++ u :: rest = (processed ++ [u]) ++ rest := by simp
    have hpfx2 : ∀ v ∈ rest, v.pfx = req.pfx :=
      fun v hv => hpfx v (List.mem_cons_of_mem _ hv)
    cases hc : conformsB u req with
    | false =>
      rw [hc] at hconf
      have hinv2 : BestInv req (processed ++ [u]) best := by
        obtain ⟨hn, hs⟩ := hinv
        constructor
        · intro hr v hv
          rcases List.mem_append.mp hv with hv | hv
          · exact hn hr v hv
          · simp only [List.mem_singleton] at hv
            subst hv
            exact hc
        · intro b hb
          obtain ⟨hb1, hb2, l1, l2, hl, hlt⟩ := hs b hb
          refine ⟨hb1, ?_, l1, l2 ++ [u], by rw [hl]; simp, hlt⟩
          intro v hv hcv
          rcases List.mem_append.mp hv with hv | hv
          · exact hb2 v hv hcv
          · simp only [List.mem_singleton] at hv
            subst hv
            rw [hc] at hcv
            exact Bool.noConfusion hcv
      obtain ⟨r, hr, hinv3⟩ := ih best bspec (processed ++ [u]) hpfx2 hinv2 hbs
      refine ⟨r, ?_, ?_⟩
      · rw [fbl_step_skip hconf]
        exact hr
      · rwa [happ]
    | true =>
      rw [hc] at hconf
      by_cases hup : (best.isNone || specificity u > bspec) = true
      · -- take u as the new best
        have hinv2 : BestInv req (processed ++ [u]) (some u) := by
          obtain ⟨hn, hs⟩ := hinv
          constructor
          · intro hr
            exact Option.noConfusion hr
          · intro b hb
            have hbu : u = b := by injection hb
            subst hbu
            refine ⟨hc, ?_, processed, [], rfl, ?_⟩
            · intro v hv hcv
              rcases List.mem_append.mp hv with hv | hv
              · rcases hbo : best with _ | b0
                · rw [hbo] at hn
                  rw [hn rfl v hv] at hcv
                  exact Bool.noConfusion hcv
                · rw [hbo] at hs
                  obtain ⟨_, hb2, _⟩ := hs b0 rfl
                  have hle := hb2 v hv hcv
                  have hlt : bspec < specificity u := by
                    rw [hbo] at hup
                    simp only [Option.isNone_some, Bool.false_or,
                      decide_eq_true_eq] at hup
                    exact hup
                  rw [← hbs b0 (by rw [hbo])] at hle
                  omega
              · simp only [List.mem_singleton] at hv
                subst hv
                exact le_refl _
            · intro v hv hcv
              rcases hbo : best with _ | b0
              · rw [hbo] at hn
                rw [hn rfl v hv] at hcv
                exact Bool.noConfusion hcv
              · rw [hbo] at hs
                obtain ⟨_, hb2, _⟩ := hs b0 rfl
                have hle := hb2 v hv hcv
                have hlt : bspec < specificity u := by
                  rw [hbo] at hup
                  simp only [Option.isNone_some, Bool.false_or,
                    decide_eq_true_eq] at hup
                  exact hup
                rw [← hbs b0 (by rw [hbo])] at hle
                omega
        obtain ⟨r, hr, hinv3⟩ := ih (some u) (specificity u) (processed ++ [u])
          hpfx2 hinv2 (by intro b hb; cases hb; rfl)
        refine ⟨r, ?_, ?_⟩
        · rw [fbl_step_take hconf hup]
          exact hr
        · rwa [happ]
      · -- keep the current best
        have hup2 : (best.isNone || specificity u > bspec) = false := by
          cases hx : (best.isNone || specificity u > bspec)
          · rfl
          · exact absurd hx hup
        obtain ⟨b0, hb0⟩ : ∃ b0, best = some b0 := by
          rcases best with _ | b0
          · simp at hup2
          · exact ⟨b0, rfl⟩
        have hle : specificity u ≤ bspec := by
          simp only [Bool.or_eq_false_iff, decide_eq_false_iff_not] at hup2
          omega
        have hinv2 : BestInv req (processed ++ [u]) best := by
          obtain ⟨hn, hs⟩ := hinv
          constructor
          · intro hr
            rw [hb0] at hr
            exact Option.noConfusion hr
          · intro b hb
            obtain ⟨hb1, hb2, l1, l2, hl, hlt⟩ := hs b hb
            have hbb0 : b0 = b := by
              rw [hb0] at hb
              injection hb
            subst hbb0
            refine ⟨hb1, ?_, l1, l2 ++ [u], by rw [hl]; simp, hlt⟩
            intro v hv hcv
            rcases List.mem_append.mp hv with hv | hv
            · exact hb2 v hv hcv
            · simp only [List.mem_singleton] at hv
              subst hv
              rw [hbs b0 hb0] at hle
              exact hle
        obtain ⟨r, hr, hinv3⟩ := ih best bspec (processed ++ [u]) hpfx2 hinv2 hbs
        refine ⟨r, ?_, ?_⟩
        · rw [fbl_step_keep hconf hup2]
          exact hr
        · rwa [happ]

/-! Canonical ordering: the sort used by tags_to_string is stable under
permutation of the input and idempotent. -/

theorem insertionSort_tagLe_perm_eq {l1 l2 : List (Str × Str)} (h : l1.Perm l2) :
    l1.insertionSort tagLe = l2.insertionSort tagLe :=
  List.eq_of_perm_of_sorted
    (((List.perm_insertionSort tagLe l1).trans h).trans
      (List.perm_insertionSort tagLe l2).symm)
    (List.sorted_insertionSort tagLe l1) (List.sorted_insertionSort tagLe l2)

theorem insertionSort_tagLe_idem (l : List (Str × Str)) :
    (l.insertionSort tagLe).insertionSort tagLe = l.insertionSort tagLe :=
  (List.sorted_insertionSort tagLe l).insertionSort_eq

/-- The sorted tag list is ascending in the keys. -/
theorem insertionSort_key_sorted (l : List (Str × Str)) :
    List.Pairwise (fun p q : Str × Str => strLeB p.1 q.1 = true)
      (l.insertionSort tagLe) := by
  have h : List.Pairwise tagLe (l.insertionSort tagLe) :=
    List.sorted_insertionSort tagLe l
  refine List.Pairwise.imp ?_ h
  intro p q hpq
  unfold tagLe at hpq
  by_cases he : p.1 = q.1
  · rw [he]
    exact strLeB_refl q.1
  · rw [if_neg he] at hpq
    unfold strLeB
    rw [hpq]
    rfl

/-! Specification-side serializer, written from the words of the
specification for comparison with the code-side tags_to_string. -/

/-- The specification's quoting condition: the value contains a semicolon,
an equals sign, a double quote, a backslash, a space, or an uppercase
letter. -/
def specNeedsQuoting (v : Str) : Bool :=
  v.any (fun c => c = 59 || c = 61 || c = 34 || c = 92 || c = 32 || (65 ≤ c && c ≤ 90))

/-- The specification's escaping rule: a backslash inserted before each
double quote and each backslash, all other characters unchanged. -/
def specEscape (v : Str) : Str :=
  (v.map (fun c => if c = 34 ∨ c = 92 then [92, c] else [c])).flatten

/-- One emitted tag as the specification words it: a star value is the bare
key, question mark and exclamation mark keep their marker after key=, any
other value is quoted exactly when the quoting condition holds. -/
def specEmitTag : Str × Str → Str
  | (k, v) =>
    if v = strStar then k
    else if v = strQ then k ++ [61] ++ strQ
    else if v = strBang then k ++ [61] ++ strBang
    else if specNeedsQuoting v then k ++ [61] ++ (34 :: (specEscape v ++ [34]))
    else k ++ [61] ++ v

/-- The specification-side serialization: prefix, colon, the tags in
ascending key order joined by semicolons with no trailing semicolon. -/
def specToString (u : TaggedUrn) : Str :=
  u.pfx ++ [58] ++ joinSemi ((u.tags.insertionSort tagLe).map specEmitTag)

theorem emitTag_eq_specEmitTag (kv : Str × Str) : emitTag kv = specEmitTag kv := by
  obtain ⟨k, v⟩ := kv
  unfold emitTag specEmitTag
  dsimp only
  by_cases h1 : v = strStar
  · rw [if_pos h1, if_pos h1]
  · rw [if_neg h1, if_neg h1]
    by_cases h2 : v = strQ
    · rw [if_pos h2, if_pos h2]
      simp [strQ]
    · rw [if_neg h2, if_neg h2]
      by_cases h3 : v = strBang
      · rw [if_pos h3, if_pos h3]
        simp [strBang]
      · rw [if_neg h3, if_neg h3]
        have hnq : needsQuoting v = specNeedsQuoting v := rfl
        rw [hnq]
        by_cases h4 : specNeedsQuoting v = true
        · rw [if_pos h4, if_pos h4]
          rw [show quoteValue v = 34 :: (specEscape v ++ [34]) from rfl]
        · rw [if_neg h4, if_neg h4]

/-! Keys stored by the constructor are lowercase-fixed. -/

theorem dictInsert_keys_sub : ∀ {d : List (Str × Str)} {k v k0 : Str},
    k0 ∈ (dictInsert d k v).map Prod.fst → k0 ∈ d.map Prod.fst ∨ k0 = k := by
  intro d
  induction d with
  | nil =>
    intro k v k0 h
    simp only [dictInsert, List.map_cons, List.map_nil, List.mem_singleton] at h
    exact Or.inr h
  | cons kv d ih =>
    intro k v k0 h
    unfold dictInsert at h
    by_cases he : kv.1 = k
    · rw [if_pos he] at h
      simp only [List.map_cons, List.mem_cons] at h
      rcases h with h | h
      · exact Or.inr h
      · exact Or.inl (by simp [h])
    · rw [if_neg he] at h
      simp only [List.map_cons, List.mem_cons] at h
      rcases h with h | h
      · exact Or.inl (by simp [h])
      · rcases ih h with h2 | h2
        · exact Or.inl (List.mem_cons_of_mem _ h2)
        · exact Or.inr h2

theorem foldl_insert_keys_lower : ∀ (ts acc : List (Str × Str)),
    (∀ k ∈ acc.map Prod.fst, pyLowerStr k = k) →
    ∀ k ∈ (ts.foldl (fun d kv => dictInsert d (pyLowerStr kv.1) kv.2) acc).map Prod.fst,
      pyLowerStr k = k := by
  intro ts
  induction ts with
  | nil => intro acc hacc; exact hacc
  | cons kv ts ih =>
    intro acc hacc
    simp only [List.foldl_cons]
    apply ih
    intro k hk
    rcases dictInsert_keys_sub hk with h | h
    · exact hacc k h
    · rw [h]
      exact pyLowerStr_idem _

/-- Every key stored by the constructor is fixed by lowercasing. -/
theorem mkUrn_keys_lower (p : Str) (ts : List (Str × Str)) :
    ∀ k ∈ (mkUrn p ts).tags.map Prod.fst, pyLowerStr k = k :=
  foldl_insert_keys_lower ts []
    (fun k hk => absurd hk (by simp))

/-- A key containing an uppercase letter is never a stored key of a
constructed URN. -/
theorem mkUrn_not_mem_upper {p : Str} {ts : List (Str × Str)} {key : Str} {c : Nat}
    (hc : c ∈ key) (hupper : 65 ≤ c ∧ c ≤ 90) :
    key ∉ (mkUrn p ts).tags.map Prod.fst := by
  intro hmem
  have hfix : pyLowerStr key = key := mkUrn_keys_lower p ts key hmem
  have : c ∈ pyLowerStr key := by rw [hfix]; exact hc
  obtain ⟨c0, _, hc0⟩ := List.mem_map.mp this
  have := pyLower_not_upper c0
  rw [hc0] at this
  exact this hupper

/-! The claims. -/

/-- C7: when the prefixes differ, conforms_to, accepts, is_compatible_with,
is_more_specific_than and merge all fail with a prefix-mismatch error
carrying both prefixes (expected the instance's prefix, actual the
pattern's), and never return false. -/
theorem c7_pfx_mismatch {a b : TaggedUrn} (h : a.pfx ≠ b.pfx) :
    conforms_to a b = .error (.pfxMismatch a.pfx b.pfx) ∧
    accepts b a = .error (.pfxMismatch a.pfx b.pfx) ∧
    is_compatible_with a b = .error (.pfxMismatch a.pfx b.pfx) ∧
    is_more_specific_than a b = .error (.pfxMismatch a.pfx b.pfx) ∧
    merge a b = .error (.pfxMismatch a.pfx b.pfx) := by
  refine ⟨?_, ?_, ?_, ?_, ?_⟩
  · unfold conforms_to checkMatch
    rw [if_pos h]
  · unfold accepts checkMatch
    rw [if_pos h]
  · unfold is_compatible_with
    rw [if_pos h]
  · unfold is_more_specific_than
    rw [if_pos h]
  · unfold merge
    rw [if_pos h]

/-- Witness for C7 on the specification's own example: parsing cap:op=x and
other:op=x and asking conformance yields the mismatch error with expected
cap and actual other. -/
theorem c7_pfx_mismatch_witness :
    from_string (strLit "cap:op=x") = .ok ⟨strLit "cap", [(strLit "op", strLit "x")]⟩ ∧
    from_string (strLit "other:op=x") =
      .ok ⟨strLit "other", [(strLit "op", strLit "x")]⟩ ∧
    (⟨strLit "cap", [(strLit "op", strLit "x")]⟩ : TaggedUrn).pfx ≠
      (⟨strLit "other", [(strLit "op", strLit "x")]⟩ : TaggedUrn).pfx ∧
    conforms_to ⟨strLit "cap", [(strLit "op", strLit "x")]⟩
        ⟨strLit "other", [(strLit "op", strLit "x")]⟩ =
      .error (.pfxMismatch (strLit "cap") (strLit "other")) :=
  ⟨by decide, by decide, by decide,
    (@c7_pfx_mismatch ⟨strLit "cap", [(strLit "op", strLit "x")]⟩
      ⟨strLit "other", [(strLit "op", strLit "x")]⟩ (by decide)).1⟩

/-- C9: the direct constructor is total and validates nothing: it stores
the lowercased prefix, every stored key is lowercase-fixed, two keys that
collide after lowercasing silently collapse with the later value winning,
TaggedUrn.empty stores the lowercased prefix with no tags, and an empty
prefix, purely numeric key and empty value are all accepted. -/
theorem c9_constructor_total (p : Str) (ts : List (Str × Str)) :
    (mkUrn p ts).pfx = pyLowerStr p ∧
    (∀ k ∈ (mkUrn p ts).tags.map Prod.fst, pyLowerStr k = k) ∧
    (∀ k1 v1 k2 v2, pyLowerStr k1 = pyLowerStr k2 →
      mkUrn p [(k1, v1), (k2, v2)] = ⟨pyLowerStr p, [(pyLowerStr k2, v2)]⟩) ∧
    emptyUrn p = ⟨pyLowerStr p, []⟩ ∧
    mkUrn [] [(strLit "123", [])] = ⟨[], [(strLit "123", [])]⟩ := by
  refine ⟨rfl, mkUrn_keys_lower p ts, ?_, rfl, by decide⟩
  intro k1 v1 k2 v2 h
  unfold mkUrn
  simp only [List.foldl_cons, List.foldl_nil]
  congr 1
  rw [show dictInsert [] (pyLowerStr k1) v1 = [(pyLowerStr k1, v1)] from rfl]
  simp only [dictInsert]
  rw [if_pos h]

/-- Witness for C9: keys Key and KEY collapse to a single lowercase entry
with the later value b. -/
theorem c9_constructor_total_witness :
    pyLowerStr (strLit "Key") = pyLowerStr (strLit "KEY") ∧
    mkUrn (strLit "CAP") [(strLit "Key", strLit "a"), (strLit "KEY", strLit "b")] =
      ⟨pyLowerStr (strLit "CAP"), [(pyLowerStr (strLit "KEY"), strLit "b")]⟩ :=
  ⟨by decide,
    (c9_constructor_total (strLit "CAP") []).2.2.1 (strLit "Key") (strLit "a")
      (strLit "KEY") (strLit "b") (by decide)⟩

/-- C10: with_wildcard_tag and subset compare the raw key argument against
the stored (lowercase) keys, so a key containing an uppercase letter leaves
with_wildcard_tag a no-op and subset empty, while get_tag lowercases its
argument and still finds the tag when the lowercase form is present. -/
theorem c10_raw_key_lookup {p : Str} {ts : List (Str × Str)} {key : Str} {c : Nat}
    (hc : c ∈ key) (hupper : 65 ≤ c ∧ c ≤ 90) :
    with_wildcard_tag (mkUrn p ts) key = mkUrn p ts ∧
    subset (mkUrn p ts) [key] = ⟨(mkUrn p ts).pfx, []⟩ ∧
    (pyLowerStr key ∈ (mkUrn p ts).tags.map Prod.fst →
      ∃ v, get_tag (mkUrn p ts) key = some v) := by
  have hnm : key ∉ (mkUrn p ts).tags.map Prod.fst := mkUrn_not_mem_upper hc hupper
  refine ⟨?_, ?_, ?_⟩
  · unfold with_wildcard_tag
    rw [if_neg (by simpa using hnm)]
  · unfold subset
    simp only [List.foldl_cons, List.foldl_nil]
    rw [dictGet_eq_none.mpr hnm]
    show mkUrn (mkUrn p ts).pfx [] = ⟨(mkUrn p ts).pfx, []⟩
    rw [show (mkUrn p ts).pfx = pyLowerStr p from rfl]
    show (⟨pyLowerStr (pyLowerStr p), []⟩ : TaggedUrn) = ⟨pyLowerStr p, []⟩
    rw [pyLowerStr_idem]
  · intro hmem
    cases hg : dictGet (mkUrn p ts).tags (pyLowerStr key) with
    | none => exact absurd hmem (dictGet_eq_none.mp hg)
    | some v => exact ⟨v, hg⟩

/-- Witness for C10: key OP against a URN holding tag op: with_wildcard_tag
is a no-op, subset drops the tag, get_tag still finds it. -/
theorem c10_raw_key_lookup_witness :
    (79 ∈ strLit "OP") ∧ (65 ≤ 79 ∧ 79 ≤ 90) ∧
    (with_wildcard_tag (mkUrn (strLit "cap") [(strLit "op", strLit "x")]) (strLit "OP") =
        mkUrn (strLit "cap") [(strLit "op", strLit "x")] ∧
      subset (mkUrn (strLit "cap") [(strLit "op", strLit "x")]) [strLit "OP"] =
        ⟨(mkUrn (strLit "cap") [(strLit "op", strLit "x")]).pfx, []⟩ ∧
      (pyLowerStr (strLit "OP") ∈
          (mkUrn (strLit "cap") [(strLit "op", strLit "x")]).tags.map Prod.fst →
        ∃ v, get_tag (mkUrn (strLit "cap") [(strLit "op", strLit "x")]) (strLit "OP") =
          some v)) :=
  ⟨by decide, by decide,
    @c10_raw_key_lookup (strLit "cap") [(strLit "op", strLit "x")] (strLit "OP") 79
      (by decide) (by decide)⟩

/-- C2: with equal prefixes, conforms_to equals accepts with the arguments
swapped, and both return exactly the conjunction, over the union of the
keys present on either side, of the per-key 5x5 matching table as the
specification states it. -/
theorem c2_matching_table {i p : TaggedUrn} (h : i.pfx = p.pfx) :
    conforms_to i p = accepts p i ∧
    conforms_to i p = .ok ((unionKeys i.tags p.tags).all
      (fun k => specMatches (dictGet i.tags k) (dictGet p.tags k))) ∧
    (conforms_to i p = .ok true ↔
      ∀ k, specMatches (dictGet i.tags k) (dictGet p.tags k) = true) := by
  have h2 : conforms_to i p = .ok (conformsB i p) := conforms_to_eq h
  have hcongr : conformsB i p = (unionKeys i.tags p.tags).all
      (fun k => specMatches (dictGet i.tags k) (dictGet p.tags k)) := by
    unfold conformsB
    simp only [valuesMatch_eq_specMatches]
  refine ⟨rfl, ?_, ?_⟩
  · rw [h2, hcongr]
  · rw [h2]
    constructor
    · intro hx
      have hb : conformsB i p = true := Except.ok.inj hx
      rw [conformsB_eq_true_iff] at hb
      intro k
      rw [← valuesMatch_eq_specMatches]
      exact hb k
    · intro hx
      have hb : conformsB i p = true := conformsB_eq_true_iff.mpr
        (fun k => by rw [valuesMatch_eq_specMatches]; exact hx k)
      rw [hb]

/-- Witness for C2: a concrete conformance check evaluated through the
theorem, pattern key absent and question mark both accept. -/
theorem c2_matching_table_witness :
    (⟨strLit "cap", [(strLit "op", strLit "x")]⟩ : TaggedUrn).pfx =
      (⟨strLit "cap", [(strLit "op", strQ)]⟩ : TaggedUrn).pfx ∧
    conforms_to ⟨strLit "cap", [(strLit "op", strLit "x")]⟩
        ⟨strLit "cap", [(strLit "op", strQ)]⟩ =
      .ok ((unionKeys [(strLit "op", strLit "x")] [(strLit "op", strQ)]).all
        (fun k => specMatches (dictGet [(strLit "op", strLit "x")] k)
          (dictGet [(strLit "op", strQ)] k))) ∧
    (unionKeys [(strLit "op", strLit "x")] [(strLit "op", strQ)]).all
        (fun k => specMatches (dictGet [(strLit "op", strLit "x")] k)
          (dictGet [(strLit "op", strQ)] k)) = true :=
  ⟨by decide,
    (@c2_matching_table ⟨strLit "cap", [(strLit "op", strLit "x")]⟩
      ⟨strLit "cap", [(strLit "op", strQ)]⟩ (by decide)).2.1,
    by decide⟩

/-- C6: to_string emits the prefix, a colon, then the tags in ascending
key order joined by semicolons with no trailing semicolon, each tag
rendered by the specification's star, question mark, exclamation mark and
smart-quoting rules; the output is invariant under permutation of the
stored tag list. -/
theorem c6_serialization (u : TaggedUrn) :
    to_string u = specToString u ∧
    List.Pairwise (fun a b : Str × Str => strLeB a.1 b.1 = true)
      (u.tags.insertionSort tagLe) ∧
    ∀ ts2, u.tags.Perm ts2 →
      to_string ⟨u.pfx, ts2⟩ = to_string u := by
  refine ⟨?_, insertionSort_key_sorted u.tags, ?_⟩
  · unfold to_string tags_to_string specToString
    rw [show emitTag = specEmitTag from funext emitTag_eq_specEmitTag,
      List.append_assoc]
    rfl
  · intro ts2 hperm
    unfold to_string tags_to_string
    dsimp only
    rw [insertionSort_tagLe_perm_eq hperm.symm]

/-- Witness for C6: two storage orders of the same tags serialize to the
same canonical text. -/
theorem c6_serialization_witness :
    List.Perm [(strLit "b", strLit "2"), (strLit "a", strLit "1")]
      [(strLit "a", strLit "1"), (strLit "b", strLit "2")] ∧
    to_string ⟨strLit "cap", [(strLit "a", strLit "1"), (strLit "b", strLit "2")]⟩ =
      to_string ⟨strLit "cap", [(strLit "b", strLit "2"), (strLit "a", strLit "1")]⟩ ∧
    to_string ⟨strLit "cap", [(strLit "b", strLit "2"), (strLit "a", strLit "1")]⟩ =
      strLit "cap:a=1;b=2" :=
  ⟨by decide,
    (c6_serialization ⟨strLit "cap", [(strLit "b", strLit "2"), (strLit "a", strLit "1")]⟩).2.2
      [(strLit "a", strLit "1"), (strLit "b", strLit "2")] (by decide),
    by decide⟩

/-- C8: the parser rejects each malformed input class with its specific
error kind and returns no value on failure: any input changed by stripping
fails with whitespaceInInput, the empty input with empty, a colon-free
nonempty input with missingPfx, a leading colon with emptyPfx, and the
specification's examples fail with numericKey, duplicateKey,
whitespaceInInput, unterminatedQuote and invalidEscapeSequence. -/
theorem c8_parse_rejections :
    (∀ s : Str, s ≠ pyStrip s → from_string s = .error .whitespaceInInput) ∧
    from_string [] = .error .empty ∧
    (∀ s : Str, s = pyStrip s → s ≠ [] → 58 ∉ s →
      from_string s = .error .missingPfx) ∧
    (∀ s : Str, 58 :: s = pyStrip (58 :: s) →
      from_string (58 :: s) = .error .emptyPfx) ∧
    from_string (strLit "cap:123=value") = .error .numericKey ∧
    from_string (strLit "cap:key=value1;key=value2") = .error .duplicateKey ∧
    from_string (strLit " cap:op=test") = .error .whitespaceInInput ∧
    from_string (strLit "cap:key=\"unclosed") = .error .unterminatedQuote ∧
    from_string (strLit "cap:key=\"bad\\n\"") = .error .invalidEscapeSequence := by
  refine ⟨?_, by decide, ?_, ?_, by decide, by decide, by decide, by decide, by decide⟩
  · intro s hs
    unfold from_string
    rw [if_pos hs]
  · intro s h1 h2 h3
    unfold from_string
    rw [if_neg (not_not_intro h1), if_neg h2, splitAtColon_eq_none h3]
  · intro s h1
    unfold from_string
    rw [if_neg (not_not_intro h1), if_neg (List.cons_ne_nil 58 s),
      show splitAtColon (58 :: s) = some ([], s) from rfl]
    dsimp only
    rw [if_pos rfl]

/-- Witness for C8: the universal guard clauses applied at concrete
rejected inputs. -/
theorem c8_parse_rejections_witness :
    (strLit " x" ≠ pyStrip (strLit " x")) ∧
    from_string (strLit " x") = .error .whitespaceInInput ∧
    (strLit "cap" = pyStrip (strLit "cap") ∧ strLit "cap" ≠ [] ∧ 58 ∉ strLit "cap") ∧
    from_string (strLit "cap") = .error .missingPfx ∧
    (58 :: strLit "op=x" = pyStrip (58 :: strLit "op=x")) ∧
    from_string (58 :: strLit "op=x") = .error .emptyPfx :=
  ⟨by decide, c8_parse_rejections.1 (strLit " x") (by decide),
    ⟨by decide, by decide, by decide⟩,
    c8_parse_rejections.2.2.1 (strLit "cap") (by decide) (by decide) (by decide),
    by decide,
    c8_parse_rejections.2.2.2.1 (strLit "op=x") (by decide)⟩

/-- C1 (amended): for every accepted input whose parsed tag values also
serialize losslessly (nonempty, and either quoted on output or made of
valid unquoted characters), re-parsing the serialization succeeds and
yields a value equal to the parse result under the library's equality, the
serialization is a fixed point of serialize-after-parse, and canonical
returns it unchanged. -/
theorem c1_round_trip {s : Str} {u : TaggedUrn}
    (h : from_string s = .ok u) (hval : ∀ kv ∈ u.tags, goodVal kv.2) :
    ∃ u2, from_string (to_string u) = .ok u2 ∧ urnBeq u2 u = true ∧
      to_string u2 = to_string u ∧
      canonical (to_string u) = .ok (to_string u) := by
  obtain ⟨hpfx, htinv⟩ := from_string_wf h
  have hwf : WFurn u := ⟨hpfx, htinv, hval⟩
  have hsp := serialize_parse hwf
  have hts : to_string (⟨u.pfx, u.tags.insertionSort tagLe⟩ : TaggedUrn) =
      to_string u := by
    unfold to_string tags_to_string
    dsimp only
    rw [insertionSort_tagLe_idem]
  refine ⟨⟨u.pfx, u.tags.insertionSort tagLe⟩, hsp, ?_, hts, ?_⟩
  · unfold urnBeq
    rw [Bool.and_eq_true]
    refine ⟨by simp, ?_⟩
    exact dictBeq_of_perm (List.perm_insertionSort tagLe u.tags)
      (((List.perm_insertionSort tagLe u.tags).map Prod.fst).nodup_iff.mpr htinv.1)
  · unfold canonical
    rw [hsp]
    dsimp only
    rw [hts]

/-- Counterexample to C1 as stated: cap:k="a,b" is accepted, but its
serialization cap:k=a,b is rejected by the parser, so the round trip fails
on an accepted input. -/
theorem c1_round_trip_counterexample :
    from_string (strLit "cap:k=\"a,b\"") =
      .ok ⟨strLit "cap", [(strLit "k", strLit "a,b")]⟩ ∧
    to_string ⟨strLit "cap", [(strLit "k", strLit "a,b")]⟩ = strLit "cap:k=a,b" ∧
    from_string (strLit "cap:k=a,b") = .error .invalidCharacter :=
  ⟨by decide, by decide, by decide⟩

/-- Witness for C1: the round trip evaluated on cap:op=x. -/
theorem c1_round_trip_witness :
    from_string (strLit "cap:op=x") =
      .ok ⟨strLit "cap", [(strLit "op", strLit "x")]⟩ ∧
    (∀ kv ∈ [(strLit "op", strLit "x")], goodVal kv.2) ∧
    ∃ u2, from_string
        (to_string (⟨strLit "cap", [(strLit "op", strLit "x")]⟩ : TaggedUrn)) =
        .ok u2 ∧
      urnBeq u2 ⟨strLit "cap", [(strLit "op", strLit "x")]⟩ = true ∧
      to_string u2 =
        to_string (⟨strLit "cap", [(strLit "op", strLit "x")]⟩ : TaggedUrn) ∧
      canonical (to_string (⟨strLit "cap", [(strLit "op", strLit "x")]⟩ : TaggedUrn)) =
        .ok (to_string (⟨strLit "cap", [(strLit "op", strLit "x")]⟩ : TaggedUrn)) :=
  ⟨by decide, by decide,
    @c1_round_trip (strLit "cap:op=x") ⟨strLit "cap", [(strLit "op", strLit "x")]⟩
      (by decide) (by decide)⟩

/-- C4 (amended): for every well-formed URN (parser invariants plus
serializable values), parsing the serialization succeeds and serializing
the re-parse gives back the same text, so canonicalization is
idempotent. -/
theorem c4_canonical_idempotent {u : TaggedUrn} (hwf : WFurn u) :
    ∃ u2, from_string (to_string u) = .ok u2 ∧ to_string u2 = to_string u := by
  refine ⟨⟨u.pfx, u.tags.insertionSort tagLe⟩, serialize_parse hwf, ?_⟩
  unfold to_string tags_to_string
  dsimp only
  rw [insertionSort_tagLe_idem]

/-- Counterexample to C4 as stated: the constructor accepts a value whose
serialization does not parse back, so serialize-then-parse fails on a
constructed URN. -/
theorem c4_canonical_counterexample :
    to_string (mkUrn (strLit "cap") [(strLit "k", strLit "a,b")]) =
      strLit "cap:k=a,b" ∧
    from_string (strLit "cap:k=a,b") = .error .invalidCharacter :=
  ⟨by decide, by decide⟩

/-- Witness for C4: idempotence evaluated on a concrete well-formed URN. -/
theorem c4_canonical_idempotent_witness :
    WFurn ⟨strLit "cap", [(strLit "op", strLit "x")]⟩ ∧
    ∃ u2, from_string
        (to_string (⟨strLit "cap", [(strLit "op", strLit "x")]⟩ : TaggedUrn)) =
        .ok u2 ∧
      to_string u2 =
        to_string (⟨strLit "cap", [(strLit "op", strLit "x")]⟩ : TaggedUrn) := by
  have hwf : WFurn ⟨strLit "cap", [(strLit "op", strLit "x")]⟩ := by
    refine ⟨⟨by decide, by decide, by decide, ?_⟩, by decide, by decide⟩
    intro c hc
    rw [show (strLit "cap").head? = some 99 from rfl] at hc
    have h99 : (99 : Nat) = c := by injection hc
    rw [← h99]
    decide
  exact ⟨hwf, c4_canonical_idempotent hwf⟩

/-- C5: for candidates sharing the request's prefix, find_best_match
succeeds; it returns none exactly when no candidate conforms, and
otherwise the returned candidate conforms, has maximal specificity among
the conforming candidates, and is the earliest one achieving that maximum:
every conforming candidate before it in input order is strictly less
specific, so ties go to the first seen with no secondary tie-break. -/
theorem c5_find_best_match {urns : List TaggedUrn} {req : TaggedUrn}
    (hpfx : ∀ u ∈ urns, u.pfx = req.pfx) :
    ∃ r, find_best_match urns req = .ok r ∧
      (r = none → ∀ u ∈ urns, conformsB u req = false) ∧
      (∀ b, r = some b → conformsB b req = true ∧
        (∀ v ∈ urns, conformsB v req = true → specificity v ≤ specificity b) ∧
        ∃ l1 l2, urns = l1 ++ b :: l2 ∧
          ∀ v ∈ l1, conformsB v req = true → specificity v < specificity b) := by
  obtain ⟨r, hr, hinv⟩ := findBestLoop_spec req urns none 0 [] hpfx
    ⟨fun _ u hu => absurd hu (List.not_mem_nil u), fun b hb => Option.noConfusion hb⟩
    (fun b hb => Option.noConfusion hb)
  rw [List.nil_append] at hinv
  exact ⟨r, hr, hinv.1, hinv.2⟩

/-- Witness for C5: the selection applied to a one-candidate list, plus the
specification's three-candidate example evaluated directly: the most
specific conforming candidate wins. -/
theorem c5_find_best_match_witness :
    (∀ u ∈ [(⟨strLit "cap", []⟩ : TaggedUrn)],
      u.pfx = (⟨strLit "cap", []⟩ : TaggedUrn).pfx) ∧
    (∃ r, find_best_match [(⟨strLit "cap", []⟩ : TaggedUrn)] ⟨strLit "cap", []⟩ =
        .ok r ∧
      (r = none → ∀ u ∈ [(⟨strLit "cap", []⟩ : TaggedUrn)],
        conformsB u ⟨strLit "cap", []⟩ = false) ∧
      (∀ b, r = some b → conformsB b ⟨strLit "cap", []⟩ = true ∧
        (∀ v ∈ [(⟨strLit "cap", []⟩ : TaggedUrn)],
          conformsB v ⟨strLit "cap", []⟩ = true → specificity v ≤ specificity b) ∧
        ∃ l1 l2, [(⟨strLit "cap", []⟩ : TaggedUrn)] = l1 ++ b :: l2 ∧
          ∀ v ∈ l1, conformsB v ⟨strLit "cap", []⟩ = true →
            specificity v < specificity b)) ∧
    find_best_match
        [⟨strLit "cap", [(strLit "op", strStar)]⟩,
         ⟨strLit "cap", [(strLit "op", strLit "generate")]⟩,
         ⟨strLit "cap", [(strLit "op", strLit "generate"), (strLit "ext", strLit "pdf")]⟩]
        ⟨strLit "cap", [(strLit "op", strLit "generate")]⟩ =
      .ok (some ⟨strLit "cap",
        [(strLit "op", strLit "generate"), (strLit "ext", strLit "pdf")]⟩) :=
  ⟨by decide, c5_find_best_match (by decide), by decide⟩

/-- C3 (amended): with equal prefixes and duplicate-free key lists,
is_compatible_with is symmetric, and it is true exactly when some concrete
instance — one whose tag values are literal values rather than the markers
question mark, exclamation mark or star — with the same prefix is accepted
by both sides as patterns. -/
theorem c3_compatibility {a b : TaggedUrn} (hpfx : a.pfx = b.pfx)
    (hna : (a.tags.map Prod.fst).Nodup) (hnb : (b.tags.map Prod.fst).Nodup) :
    is_compatible_with a b = .ok (compatB a b) ∧
    is_compatible_with b a = .ok (compatB a b) ∧
    (is_compatible_with a b = .ok true ↔
      ∃ i : TaggedUrn, i.pfx = a.pfx ∧
        (∀ kv ∈ i.tags, kv.2 ≠ strQ ∧ kv.2 ≠ strBang ∧ kv.2 ≠ strStar) ∧
        accepts a i = .ok true ∧ accepts b i = .ok true) := by
  have heqa : is_compatible_with a b = .ok (compatB a b) := is_compatible_with_eq hpfx
  have heqb : is_compatible_with b a = .ok (compatB b a) :=
    is_compatible_with_eq hpfx.symm
  refine ⟨heqa, by rw [heqb, compatB_symm], ?_⟩
  rw [heqa]
  constructor
  · intro hx
    have hcomp : compatB a b = true := Except.ok.inj hx
    have hpt : ∀ k, valuesCompatible (dictGet a.tags k) (dictGet b.tags k) = true :=
      compatB_eq_true_iff.mp hcomp
    have hgetw : ∀ k, dictGet (witnessTags a b) k =
        if k ∈ unionKeys a.tags b.tags
        then pickVal (dictGet a.tags k) (dictGet b.tags k) else none :=
      fun k => dictGet_foldr_pick
        (fun k => pickVal (dictGet a.tags k) (dictGet b.tags k))
        (unionKeys a.tags b.tags) (unionKeys_nodup hna hnb) k
    have hconfa : conformsB ⟨a.pfx, witnessTags a b⟩ a = true := by
      rw [conformsB_eq_true_iff]
      intro k
      show valuesMatch (dictGet (witnessTags a b) k) (dictGet a.tags k) = true
      rw [hgetw k]
      by_cases hm : k ∈ unionKeys a.tags b.tags
      · rw [if_pos hm]
        exact (pickVal_spec (hpt k)).1
      · rw [if_neg hm]
        have hka : k ∉ a.tags.map Prod.fst :=
          fun hk => hm (mem_unionKeys.mpr (Or.inl hk))
        rw [dictGet_eq_none.mpr hka]
        rfl
    have hconfb : conformsB ⟨a.pfx, witnessTags a b⟩ b = true := by
      rw [conformsB_eq_true_iff]
      intro k
      show valuesMatch (dictGet (witnessTags a b) k) (dictGet b.tags k) = true
      rw [hgetw k]
      by_cases hm : k ∈ unionKeys a.tags b.tags
      · rw [if_pos hm]
        exact (pickVal_spec (hpt k)).2.1
      · rw [if_neg hm]
        have hkb : k ∉ b.tags.map Prod.fst :=
          fun hk => hm (mem_unionKeys.mpr (Or.inr hk))
        rw [dictGet_eq_none.mpr hkb]
        rfl
    refine ⟨⟨a.pfx, witnessTags a b⟩, rfl, ?_, ?_, ?_⟩
    · intro kv hm
      have hpk : pickVal (dictGet a.tags kv.1) (dictGet b.tags kv.1) = some kv.2 :=
        mem_foldr_pick _ _ kv hm
      exact (pickVal_spec (hpt kv.1)).2.2 kv.2 hpk
    · rw [show accepts a (⟨a.pfx, witnessTags a b⟩ : TaggedUrn) =
          conforms_to (⟨a.pfx, witnessTags a b⟩ : TaggedUrn) a from rfl,
        conforms_to_eq (show (⟨a.pfx, witnessTags a b⟩ : TaggedUrn).pfx = a.pfx
          from rfl), hconfa]
    · rw [show accepts b (⟨a.pfx, witnessTags a b⟩ : TaggedUrn) =
          conforms_to (⟨a.pfx, witnessTags a b⟩ : TaggedUrn) b from rfl,
        conforms_to_eq (show (⟨a.pfx, witnessTags a b⟩ : TaggedUrn).pfx = b.pfx
          from hpfx), hconfb]
  · rintro ⟨i, hip, hconc, ha, hb⟩
    have h1 : conformsB i a = true := by
      rw [show accepts a i = conforms_to i a from rfl, conforms_to_eq hip] at ha
      exact Except.ok.inj ha
    have h2 : conformsB i b = true := by
      rw [show accepts b i = conforms_to i b from rfl,
        conforms_to_eq (hip.trans hpfx)] at hb
      exact Except.ok.inj hb
    have hm1 := conformsB_eq_true_iff.mp h1
    have hm2 := conformsB_eq_true_iff.mp h2
    have hcomp : compatB a b = true := by
      rw [compatB_eq_true_iff]
      intro k
      refine compat_of_concrete_match ?_ (hm1 k) (hm2 k)
      cases hg : dictGet i.tags k with
      | none => exact Or.inl rfl
      | some v =>
        have hmem := dictGet_some_mem hg
        exact Or.inr ⟨v, rfl, (hconc (k, v) hmem).1, (hconc (k, v) hmem).2.1,
          (hconc (k, v) hmem).2.2⟩
    rw [hcomp]

/-- Counterexample to C3 as stated: the patterns cap:k=! and cap:k=* are
reported incompatible, yet the instance cap:k=? is accepted by both, so
the existence direction fails for unrestricted instances. -/
theorem c3_compatibility_counterexample :
    is_compatible_with ⟨strLit "cap", [(strLit "k", strBang)]⟩
        ⟨strLit "cap", [(strLit "k", strStar)]⟩ = .ok false ∧
    accepts ⟨strLit "cap", [(strLit "k", strBang)]⟩
        ⟨strLit "cap", [(strLit "k", strQ)]⟩ = .ok true ∧
    accepts ⟨strLit "cap", [(strLit "k", strStar)]⟩
        ⟨strLit "cap", [(strLit "k", strQ)]⟩ = .ok true :=
  ⟨by decide, by decide, by decide⟩

/-- Witness for C3: compatibility of cap:k=v with an unconstrained cap
pattern, through the theorem. -/
theorem c3_compatibility_witness :
    ((⟨strLit "cap", [(strLit "k", strLit "v")]⟩ : TaggedUrn).pfx =
      (⟨strLit "cap", []⟩ : TaggedUrn).pfx) ∧
    ([(strLit "k", strLit "v")].map Prod.fst).Nodup ∧
    (([] : List (Str × Str)).map Prod.fst).Nodup ∧
    (is_compatible_with ⟨strLit "cap", [(strLit "k", strLit "v")]⟩
        ⟨strLit "cap", []⟩ =
      .ok (compatB ⟨strLit "cap", [(strLit "k", strLit "v")]⟩ ⟨strLit "cap", []⟩) ∧
    is_compatible_with ⟨strLit "cap", []⟩
        ⟨strLit "cap", [(strLit "k", strLit "v")]⟩ =
      .ok (compatB ⟨strLit "cap", [(strLit "k", strLit "v")]⟩ ⟨strLit "cap", []⟩) ∧
    (is_compatible_with ⟨strLit "cap", [(strLit "k", strLit "v")]⟩
        ⟨strLit "cap", []⟩ = .ok true ↔
      ∃ i : TaggedUrn,
        i.pfx = (⟨strLit "cap", [(strLit "k", strLit "v")]⟩ : TaggedUrn).pfx ∧
        (∀ kv ∈ i.tags, kv.2 ≠ strQ ∧ kv.2 ≠ strBang ∧ kv.2 ≠ strStar) ∧
        accepts ⟨strLit "cap", [(strLit "k", strLit "v")]⟩ i = .ok true ∧
        accepts ⟨strLit "cap", []⟩ i = .ok true)) :=
  ⟨by decide, by decide, by decide,
    @c3_compatibility ⟨strLit "cap", [(strLit "k", strLit "v")]⟩ ⟨strLit "cap", []⟩
      (by decide) (by decide) (by decide)⟩

end TaggedUrnModel
